import Mathlib

set_option maxRecDepth 40000
set_option maxHeartbeats 2000000

/-
Verification of the GF(256) secret-sharing / MPC library.

The development shallowly embeds the C sources:
  src/src/core/field_arithmetic.c   (gf256_mul, gf256_inv, gf256_div, gf256_pow)
  src/src/core/polynomial.c         (create / evaluate / interpolate)
  src/src/core/secret_sharing.c     (sss_create_shares, sss_combine_shares, validation)
  src/src/core/mpc.c                (context, share wrapping, secure arithmetic)

Bytes (C uint8_t values) are modelled as Nat with explicit % 256 where the C
code truncates; byte buffers are Lists of Nat; fallible functions return
Except Int mirroring the C int status codes; the CSPRNG is an explicit oracle
argument.  Randomly drawn nonzero coefficients appear as oracle values, and
theorems assume them to be in [1, 255] exactly as the rejection-sampling loop
in sss_polynomial_create guarantees.
-/

/- ================= GF(256) scalar operations (field_arithmetic.c) ========= -/

/-- Addition in GF(256) (gf256_add in field.h): bitwise XOR. -/
def gf256_add (a b : Nat) : Nat := a ^^^ b

/-- Subtraction in GF(256) (gf256_sub in field.h): also bitwise XOR. -/
def gf256_sub (a b : Nat) : Nat := a ^^^ b

/-- Body of one iteration of the gf256_mul loop acting on the left operand:
record the high bit, shift left by one as a uint8 (hence the % 256), and
XOR in 0x1B when the bit shifted out was set. -/
def gf256_xtime (a : Nat) : Nat :=
  if a &&& 0x80 ≠ 0 then ((a <<< 1) % 256) ^^^ 0x1B else ((a <<< 1) % 256)

/-- The 8-iteration Russian-peasant loop of gf256_mul: when the low bit of b
is set, XOR the current a into the accumulator; then step a by gf256_xtime
and shift b right.  The first argument is the loop counter (8 at entry). -/
def gf256_mulAux : Nat → Nat → Nat → Nat → Nat
  | 0, _, _, result => result
  | fuel + 1, a, b, result =>
      gf256_mulAux fuel (gf256_xtime a) (b >>> 1)
        (if b &&& 1 = 1 then result ^^^ a else result)

/-- Multiplication in GF(256) (gf256_mul in field_arithmetic.c). -/
def gf256_mul (a b : Nat) : Nat := gf256_mulAux 8 a b 0

/-- The square-and-multiply loop shared verbatim by gf256_inv and gf256_pow:
while exp > 0, multiply the accumulator by base when the low exponent bit is
set, square base, and halve exp.  A uint8 exponent drains in at most 8
iterations, which the fuel argument (8 at entry) makes explicit. -/
def gf256_powLoop : Nat → Nat → Nat → Nat → Nat
  | 0, _, _, result => result
  | fuel + 1, exp, base, result =>
      if exp = 0 then result
      else
        gf256_powLoop fuel (exp >>> 1) (gf256_mul base base)
          (if exp &&& 1 = 1 then gf256_mul result base else result)

/-- Multiplicative inverse (gf256_inv): 0 maps to the sentinel 0, a nonzero a
to the square-and-multiply computation of a to the 254th power. -/
def gf256_inv (a : Nat) : Nat :=
  if a = 0 then 0 else gf256_powLoop 8 254 a 1

/-- Division (gf256_div): multiplication by the inverse, with the b = 0
sentinel returning 0. -/
def gf256_div (a b : Nat) : Nat :=
  if b = 0 then 0 else gf256_mul a (gf256_inv b)

/-- Exponentiation (gf256_pow): exp = 0 gives 1, base = 0 (with exp nonzero)
gives 0, otherwise the same square-and-multiply loop as gf256_inv. -/
def gf256_pow (base exp : Nat) : Nat :=
  if exp = 0 then 1
  else if base = 0 then 0
  else gf256_powLoop 8 exp base 1

/- ===== proof-side tables: powers of the generator 3 of GF(256)* =========== -/

/-- Proof-side table (not part of the source): the 255 powers of the
generator 3 of the multiplicative group of GF(256), packed little-endian one
byte per entry into a single numeral; entry i is 3 to the i-th power. -/
def gexpN : Nat := 0xf652c7b46c241cfda297847cdd4b39170df2a794858a8f8c8d7b29ee5a36120ef351c6423ee3a891868b79de4acf45ca46cbb099772d1b0907f4a563211ffc54c543c8b16f25eaaf6523e858c1b69b80898e7adfbc9d827e2aefac64d5ba9f75dabf9c742ced5bc040c9473de25ec3413f15fa5632e75dc2b76dd24e3a16fba06020e9ae93712fecad92877d2b19fea361d6bb69271d0bf0503010f957c4b59a76db49ceb398817fdcbd6bd0b99e838878281808f1a662d74d3be0a967d44ccdb26ed3b868d14fcc443c140c04f55331e6ab9070d9be6a26eb5937e45c34e5aa66221e0a0602f7a49573d84838e15f3513f8a196722e1aff5533110f050301

/-- Entry i of the packed power table. -/
def gexp (i : Nat) : Nat := (gexpN >>> (8 * i)) &&& 255

/-- Proof-side table: discrete logarithms base 3, packed little-endian one
byte per entry; entry a (for nonzero a) is the index i < 255 with
gexp i = a.  Entry 0 is unused padding. -/
def glogN : Nat := 0x770f7c0808c630d18fe31c5deed4a67a5e3997726b87cb4892e2023d9921144abd3f2565d9e2a14476da2413c843953d15b3f37cdcf95bcfcdcbe619087b2979d2955aa6ca1523b86b160fb5a3ebbccb77b76a42d1f43d8ec49c4176ff60c7fa051a99cb05fcb59f50b16eb7a75d72ce8ade6e7d5e9ae4f74d6eaf450a858af57a773f3e5acd44eca5e9f9b150a792bba3d85fa54286b3a421eb6a3c3486e7e1091882298e225b3628b06bf30fddd6638834640f1d25c1394ced036bddb8f968eda93354582f01224e10f21058a2f657809c99a72a6e44d6a27b9f9b51dc27dc11c69f8c808714cef818d340ee0046403dfee33681bc74bc61a023201190000

/-- Entry a of the packed logarithm table. -/
def glog (a : Nat) : Nat := (glogN >>> (8 * a)) &&& 255

/- ================= polynomial layer (polynomial.c) ======================== -/

def POLY_OK : Int := 0

def POLY_ERROR : Int := -1

/-- Coefficient list a0 :: a1 :: ... :: a_degree of the polynomial built by
sss_polynomial_create: the constant term is the secret byte and coefficient
i (for 1 <= i <= degree) is the oracle value rand i, standing for the byte
drawn by the do-while rejection loop (hence nonzero, which theorems carry as
a hypothesis on the oracle).  Slots beyond the degree are zeroed by the C
code and never read; the list stops at the degree. -/
def sss_polynomial_coeffs (rand : Nat → Nat) (secret degree : Nat) : List Nat :=
  secret :: (List.range degree).map (fun i => rand (i + 1))

/-- sss_polynomial_create: fails on degree > SSS_MAX_POLYNOMIAL_DEGREE = 254,
otherwise produces the coefficient list. -/
def sss_polynomial_create (rand : Nat → Nat) (secret degree : Nat) :
    Except Int (List Nat) :=
  if degree > 254 then .error POLY_ERROR
  else .ok (sss_polynomial_coeffs rand secret degree)

/-- sss_polynomial_evaluate: Horner evaluation from the top coefficient down,
result = gf256_add (gf256_mul result x) coeff i. -/
def sss_polynomial_evaluate (coeffs : List Nat) (x : Nat) : Nat :=
  coeffs.foldr (fun a result => gf256_add (gf256_mul result x) a) 0

/-- sss_polynomial_interpolate: Lagrange interpolation at x = 0.  The outer
loop accumulates gf256_mul (points_y i) (basis i) into secret; the inner loop
accumulates gf256_mul basis (gf256_div (points_x j) (gf256_sub (points_x j)
(points_x i))) over j different from i, starting from 1.  Array reads are
modelled by getD with default 0. -/
def sss_polynomial_interpolate (points_x points_y : List Nat)
    (num_points : Nat) : Nat :=
  (List.range num_points).foldl
    (fun secret i =>
      gf256_add secret (gf256_mul (points_y.getD i 0)
        ((List.range num_points).foldl
          (fun basis j =>
            if i = j then basis
            else
              gf256_mul basis
                (gf256_div (points_x.getD j 0)
                  (gf256_sub (points_x.getD j 0) (points_x.getD i 0))))
          1)))
    0

/- ================= secret sharing layer (secret_sharing.c) ================ -/

def SSS_OK : Int := 0

def SSS_ERR_INVALID_PARAM : Int := -1

def SSS_ERR_INVALID_THRESHOLD : Int := -2

def SSS_ERR_INVALID_SHARES : Int := -3

def SSS_ERR_BUFFER_TOO_SMALL : Int := -4

def SSS_ERR_DUPLICATE_SHARE : Int := -5

def SSS_ERR_CRYPTO : Int := -8

def SSS_MAX_SECRET_SIZE : Nat := 1024

def SSS_MAX_SHARES : Nat := 255

def SSS_MIN_THRESHOLD : Nat := 2

def SSS_SHARE_DATA_SIZE : Nat := 32

/-- A share (sss_share_t): x-coordinate, required threshold, the data bytes
actually written into the 32-byte buffer, and the recorded length. -/
structure sss_share_t where
  index : Nat
  threshold : Nat
  data : List Nat
  data_len : Nat
deriving DecidableEq, Repr

instance : Inhabited sss_share_t := ⟨⟨0, 0, [], 0⟩⟩

/-- validate_share_params from secret_sharing.c (the NULL checks concern
pointers and have no counterpart in the embedding). -/
def validate_share_params (secret_len threshold num_shares : Nat) : Int :=
  if secret_len = 0 ∨ secret_len > SSS_MAX_SECRET_SIZE then SSS_ERR_INVALID_PARAM
  else if threshold < SSS_MIN_THRESHOLD then SSS_ERR_INVALID_THRESHOLD
  else if threshold > num_shares then SSS_ERR_INVALID_THRESHOLD
  else if num_shares > SSS_MAX_SHARES ∨ num_shares = 0 then SSS_ERR_INVALID_SHARES
  else SSS_OK

/-- sss_create_shares: validate, then for share i (0-based) set index i+1,
the given threshold, data_len = secret_len, and for each byte j evaluate the
fresh random polynomial with constant term secret j at x = i+1.  The oracle
rand j supplies the coefficients of the byte-j polynomial.  A failing
sss_polynomial_create (degree > 254, impossible after validation) maps to
SSS_ERR_CRYPTO exactly as in the C code.  Reads of the secret buffer are
getD with default 0; the claims only exercise in-bounds reads. -/
def sss_create_shares (secret : List Nat) (secret_len threshold num_shares : Nat)
    (rand : Nat → Nat → Nat) : Except Int (List sss_share_t) :=
  let v := validate_share_params secret_len threshold num_shares
  if v ≠ SSS_OK then .error v
  else if threshold - 1 > 254 then .error SSS_ERR_CRYPTO
  else
    .ok ((List.range num_shares).map (fun i =>
      { index := i + 1
        threshold := threshold
        data := (List.range secret_len).map (fun j =>
          sss_polynomial_evaluate
            (sss_polynomial_coeffs (rand j) (secret.getD j 0) (threshold - 1))
            (i + 1))
        data_len := secret_len }))

/-- sss_combine_shares: reject an empty batch, fewer shares than the first
share's threshold, disagreement of any later share with the first on
threshold or data_len, duplicate indices, and a caller buffer (secret_len)
shorter than data_len; otherwise interpolate every byte column at x = 0.
On success the C code writes data_len bytes and stores data_len through the
secret_len out-parameter; the returned list has exactly that length. -/
def sss_combine_shares (shares : List sss_share_t) (secret_len : Nat) :
    Except Int (List Nat) :=
  if shares.length = 0 then .error SSS_ERR_INVALID_SHARES
  else
    let threshold := (shares.headD default).threshold
    if shares.length < threshold then .error SSS_ERR_INVALID_SHARES
    else
      let data_len := (shares.headD default).data_len
      if (shares.drop 1).any
          (fun s => s.threshold ≠ threshold ∨ s.data_len ≠ data_len) then
        .error SSS_ERR_INVALID_SHARES
      else if ¬ (shares.map (fun s => s.index)).Nodup then
        .error SSS_ERR_DUPLICATE_SHARE
      else if secret_len < data_len then .error SSS_ERR_BUFFER_TOO_SMALL
      else
        .ok ((List.range data_len).map (fun j =>
          sss_polynomial_interpolate (shares.map (fun s => s.index))
            (shares.map (fun s => s.data.getD j 0)) shares.length))

/-- sss_validate_share from secret_sharing.c. -/
def sss_validate_share (share : sss_share_t) : Int :=
  if share.index = 0 then SSS_ERR_INVALID_SHARES
  else if share.threshold < SSS_MIN_THRESHOLD then SSS_ERR_INVALID_THRESHOLD
  else if share.data_len = 0 ∨ share.data_len > SSS_SHARE_DATA_SIZE then
    SSS_ERR_INVALID_SHARES
  else SSS_OK

/- ================= MPC layer (mpc.c) ===================================== -/

/-- An MPC share (mpc_share_t): a wrapped SSS share plus the holding party's
id and the computation (session) id. -/
structure mpc_share_t where
  share : sss_share_t
  party_id : Nat
  computation_id : Nat
deriving DecidableEq, Repr

instance : Inhabited mpc_share_t := ⟨⟨default, 0, 0⟩⟩

/-- An MPC context (mpc_context_t). -/
structure mpc_context_t where
  num_parties : Nat
  threshold : Nat
  computation_id : Nat
  value_size : Nat
deriving DecidableEq, Repr

/-- mpc_init_context: range checks, then store the four fields; the random
computation id drawn from the CSPRNG is an explicit oracle argument. -/
def mpc_init_context (num_parties threshold value_size rand_id : Nat) :
    Except Int mpc_context_t :=
  if num_parties < 2 ∨ num_parties > 255 then .error (-1)
  else if threshold < 2 ∨ threshold > num_parties then .error (-1)
  else if value_size = 0 ∨ value_size > SSS_MAX_SECRET_SIZE then .error (-1)
  else
    .ok { num_parties := num_parties, threshold := threshold,
          computation_id := rand_id, value_size := value_size }

/-- The well-formedness a context acquires from a successful
mpc_init_context. -/
def mpc_context_wf (ctx : mpc_context_t) : Prop :=
  2 ≤ ctx.num_parties ∧ ctx.num_parties ≤ 255 ∧
  2 ≤ ctx.threshold ∧ ctx.threshold ≤ ctx.num_parties ∧
  1 ≤ ctx.value_size ∧ ctx.value_size ≤ SSS_MAX_SECRET_SIZE

/-- mpc_validate_share: party id in [1, num_parties], matching computation
id, and data_len equal to the context's value_size. -/
def mpc_validate_share (ctx : mpc_context_t) (share : mpc_share_t) : Int :=
  if share.party_id < 1 ∨ share.party_id > ctx.num_parties then -1
  else if share.computation_id ≠ ctx.computation_id then -1
  else if share.share.data_len ≠ ctx.value_size then -1
  else 0

/-- mpc_create_shares: delegate to sss_create_shares with the context's
value_size, threshold and num_parties, then wrap share i with party id i+1
and the context's computation id.  Any SSS failure is collapsed to -1. -/
def mpc_create_shares (ctx : mpc_context_t) (secret : List Nat)
    (rand : Nat → Nat → Nat) : Except Int (List mpc_share_t) :=
  match sss_create_shares secret ctx.value_size ctx.threshold ctx.num_parties rand with
  | .error _ => .error (-1)
  | .ok sss_shares =>
      .ok ((List.range ctx.num_parties).map (fun i =>
        { share := sss_shares.getD i default
          party_id := i + 1
          computation_id := ctx.computation_id }))

/-- mpc_reconstruct: require at least threshold shares, validate every share
against the context, then combine the inner SSS shares into a buffer of
value_size bytes. -/
def mpc_reconstruct (ctx : mpc_context_t) (shares : List mpc_share_t) :
    Except Int (List Nat) :=
  if shares.length < ctx.threshold then .error (-1)
  else if shares.any (fun m => mpc_validate_share ctx m ≠ 0) then .error (-1)
  else
    match sss_combine_shares (shares.map (fun m => m.share)) ctx.value_size with
    | .error _ => .error (-1)
    | .ok secret => .ok secret

/-- mpc_secure_add: for each position validate both inputs, require matching
party ids and data lengths, and produce the share whose data bytes are the
GF(256) sums; metadata is copied from the x share except the computation id,
which is refreshed from the context.  The C loop reads num_shares entries of
both arrays; the embedding pairs the two lists positionally. -/
def mpc_secure_add (ctx : mpc_context_t) (shares_x shares_y : List mpc_share_t) :
    Except Int (List mpc_share_t) :=
  if shares_x.length = 0 then .error (-1)
  else if (shares_x.zip shares_y).any (fun p =>
      mpc_validate_share ctx p.1 ≠ 0 ∨ mpc_validate_share ctx p.2 ≠ 0 ∨
      p.1.party_id ≠ p.2.party_id ∨ p.1.share.data_len ≠ p.2.share.data_len) then
    .error (-1)
  else
    .ok ((shares_x.zip shares_y).map (fun p =>
      { party_id := p.1.party_id
        computation_id := ctx.computation_id
        share :=
          { index := p.1.share.index
            threshold := p.1.share.threshold
            data := (List.range p.1.share.data_len).map (fun j =>
              gf256_add (p.1.share.data.getD j 0) (p.2.share.data.getD j 0))
            data_len := p.1.share.data_len } }))

/-- mpc_secure_mul: validate as in secure_add but additionally require at
least threshold shares; multiply pointwise into intermediate shares carrying
the context's threshold; reconstruct the intermediate product; reshare it
with mpc_create_shares under fresh randomness (the rand oracle). -/
def mpc_secure_mul (ctx : mpc_context_t) (shares_x shares_y : List mpc_share_t)
    (rand : Nat → Nat → Nat) : Except Int (List mpc_share_t) :=
  if shares_x.length = 0 ∨ shares_x.length < ctx.threshold then .error (-1)
  else if (shares_x.zip shares_y).any (fun p =>
      mpc_validate_share ctx p.1 ≠ 0 ∨ mpc_validate_share ctx p.2 ≠ 0 ∨
      p.1.party_id ≠ p.2.party_id ∨ p.1.share.data_len ≠ p.2.share.data_len) then
    .error (-1)
  else
    let data_len := (shares_x.headD default).share.data_len
    let intermediate : List mpc_share_t := (shares_x.zip shares_y).map (fun p =>
      { party_id := p.1.party_id
        computation_id := ctx.computation_id
        share :=
          { index := p.1.share.index
            threshold := ctx.threshold
            data := (List.range data_len).map (fun j =>
              gf256_mul (p.1.share.data.getD j 0) (p.2.share.data.getD j 0))
            data_len := data_len } })
    match mpc_reconstruct ctx intermediate with
    | .error _ => .error (-1)
    | .ok product => mpc_create_shares ctx product rand

/-- The fold of mpc_secure_sum: add each remaining share set into the
running sum, stopping at the first failure. -/
def mpc_secure_sum_loop (ctx : mpc_context_t) (num_shares : Nat) :
    List mpc_share_t → List (List mpc_share_t) → Except Int (List mpc_share_t)
  | acc, [] => .ok acc
  | acc, set :: rest =>
      match mpc_secure_add ctx acc
          ((List.range num_shares).map (fun i => set.getD i default)) with
      | .error e => .error e
      | .ok temp => mpc_secure_sum_loop ctx num_shares temp rest

/-- mpc_secure_sum: reject an empty value list or zero num_shares, copy the
first set's first num_shares shares into the running sum, then fold
mpc_secure_add over the remaining sets. -/
def mpc_secure_sum (ctx : mpc_context_t) (share_sets : List (List mpc_share_t))
    (num_shares : Nat) : Except Int (List mpc_share_t) :=
  if share_sets.length = 0 ∨ num_shares = 0 then .error (-1)
  else
    mpc_secure_sum_loop ctx num_shares
      ((List.range num_shares).map (fun i => (share_sets.headD []).getD i default))
      (share_sets.drop 1)

/- ================= bit-level lemmas about the gf256_mul loop ============== -/

theorem gf_xor_swap (a b c d : Nat) :
    (a ^^^ b) ^^^ (c ^^^ d) = (a ^^^ c) ^^^ (b ^^^ d) := by
  simp only [Nat.xor_assoc]
  rw [← Nat.xor_assoc b c d, Nat.xor_comm b c, Nat.xor_assoc]

theorem gf_xor_shiftLeft_one (x y : Nat) :
    (x ^^^ y) <<< 1 = (x <<< 1) ^^^ (y <<< 1) := by
  apply Nat.eq_of_testBit_eq
  intro i
  simp only [Nat.testBit_shiftLeft, Nat.testBit_xor, Bool.and_xor_distrib_left]

theorem gf_xor_shiftRight_one (x y : Nat) :
    (x ^^^ y) >>> 1 = (x >>> 1) ^^^ (y >>> 1) := by
  apply Nat.eq_of_testBit_eq
  intro i
  simp only [Nat.testBit_shiftRight, Nat.testBit_xor]

theorem gf_xor_mod_256 (x y : Nat) :
    (x ^^^ y) % 256 = (x % 256) ^^^ (y % 256) := by
  have h : (256 : Nat) = 2 ^ 8 := rfl
  rw [h, ← Nat.and_pow_two_sub_one_eq_mod, ← Nat.and_pow_two_sub_one_eq_mod,
    ← Nat.and_pow_two_sub_one_eq_mod, Nat.and_xor_distrib_right]

theorem gf_and_128_cases (x : Nat) : x &&& 128 = 0 ∨ x &&& 128 = 128 := by
  have h : (128 : Nat) = 2 ^ 7 := rfl
  rw [h, Nat.and_two_pow]
  cases x.testBit 7 <;> simp

/-- Branch-free description of gf256_xtime. -/
theorem gf256_xtime_eq (a : Nat) :
    gf256_xtime a = ((a <<< 1) % 256) ^^^ (if a &&& 128 ≠ 0 then 27 else 0) := by
  unfold gf256_xtime
  split
  · rfl
  · exact (Nat.xor_zero _).symm

theorem gf256_xtime_zero : gf256_xtime 0 = 0 := by decide

theorem gf256_xtime_add (x y : Nat) :
    gf256_xtime (x ^^^ y) = gf256_xtime x ^^^ gf256_xtime y := by
  rw [gf256_xtime_eq, gf256_xtime_eq, gf256_xtime_eq, gf_xor_shiftLeft_one,
    gf_xor_mod_256, gf_xor_swap, Nat.and_xor_distrib_right]
  rcases gf_and_128_cases x with hx | hx <;>
    rcases gf_and_128_cases y with hy | hy <;> simp [hx, hy]

theorem gf256_xtime_lt (a : Nat) : gf256_xtime a < 256 := by
  have h : (256 : Nat) = 2 ^ 8 := rfl
  unfold gf256_xtime
  split
  · exact h ▸ Nat.xor_lt_two_pow (h ▸ Nat.mod_lt _ (by norm_num)) (by norm_num)
  · exact Nat.mod_lt _ (by norm_num)

theorem gf256_xtime_of_lt (x : Nat) (h : x < 128) : gf256_xtime x = 2 * x := by
  have hbit : x &&& 128 = 0 := by
    have h7 : (128 : Nat) = 2 ^ 7 := rfl
    rw [h7, Nat.and_two_pow]
    have : x.testBit 7 = false := Nat.testBit_lt_two_pow (by omega)
    simp [this]
  have h1 : x <<< 1 = x * 2 := by rw [Nat.shiftLeft_eq]
  rw [gf256_xtime_eq, hbit, h1]
  simp [Nat.mod_eq_of_lt (show x * 2 < 256 by omega), Nat.mul_comm]

theorem gf_and_1_cases (x : Nat) : x &&& 1 = 0 ∨ x &&& 1 = 1 := by
  rw [Nat.and_one_is_mod]
  omega

theorem gf256_mulAux_zero_left (fuel : Nat) :
    ∀ b r, gf256_mulAux fuel 0 b r = r := by
  induction fuel with
  | zero => intro b r; rfl
  | succ f ih =>
    intro b r
    simp [gf256_mulAux, gf256_xtime_zero, ih]

theorem gf256_mulAux_zero_right (fuel : Nat) :
    ∀ a r, gf256_mulAux fuel a 0 r = r := by
  induction fuel with
  | zero => intro a r; rfl
  | succ f ih =>
    intro a r
    simp [gf256_mulAux, ih]

theorem gf256_mulAux_add_left (fuel : Nat) :
    ∀ x y b r s, gf256_mulAux fuel (x ^^^ y) b (r ^^^ s) =
      gf256_mulAux fuel x b r ^^^ gf256_mulAux fuel y b s := by
  induction fuel with
  | zero => intro x y b r s; rfl
  | succ f ih =>
    intro x y b r s
    simp only [gf256_mulAux, gf256_xtime_add]
    by_cases hb : b &&& 1 = 1
    · simp only [hb, if_pos]
      rw [gf_xor_swap]
      exact ih _ _ _ _ _
    · simp only [hb, if_neg, ite_false]
      exact ih _ _ _ _ _

theorem gf256_mulAux_add_right (fuel : Nat) :
    ∀ a b c r s, gf256_mulAux fuel a (b ^^^ c) (r ^^^ s) =
      gf256_mulAux fuel a b r ^^^ gf256_mulAux fuel a c s := by
  induction fuel with
  | zero => intro a b c r s; rfl
  | succ f ih =>
    intro a b c r s
    simp only [gf256_mulAux, gf_xor_shiftRight_one]
    have hbc : (b ^^^ c) &&& 1 = (b &&& 1) ^^^ (c &&& 1) := Nat.and_xor_distrib_right
    rcases gf_and_1_cases b with hb | hb <;> rcases gf_and_1_cases c with hc | hc
    · rw [hbc, hb, hc]
      simp only [Nat.xor_zero, hb, hc]
      norm_num
      exact ih _ _ _ _ _
    · rw [hbc, hb, hc]
      simp only [Nat.zero_xor, hb, hc]
      norm_num
      rw [Nat.xor_assoc]
      exact ih _ _ _ _ _
    · rw [hbc, hb, hc]
      simp only [Nat.xor_zero, hb, hc]
      norm_num
      rw [Nat.xor_assoc, Nat.xor_comm s a, ← Nat.xor_assoc]
      exact ih _ _ _ _ _
    · rw [hbc, hb, hc]
      simp only [Nat.xor_self, hb, hc]
      norm_num
      have h : (r ^^^ a) ^^^ (s ^^^ a) = r ^^^ s := by
        rw [gf_xor_swap r a s a, Nat.xor_self, Nat.xor_zero]
      rw [← h]
      exact ih _ _ _ _ _

theorem gf256_mulAux_xtime (fuel : Nat) :
    ∀ a b r, gf256_mulAux fuel (gf256_xtime a) b (gf256_xtime r) =
      gf256_xtime (gf256_mulAux fuel a b r) := by
  induction fuel with
  | zero => intro a b r; rfl
  | succ f ih =>
    intro a b r
    simp only [gf256_mulAux]
    by_cases hb : b &&& 1 = 1
    · simp only [hb, if_pos]
      rw [← gf256_xtime_add]
      exact ih _ _ _
    · simp only [hb, if_neg, ite_false]
      exact ih _ _ _

theorem gf256_mulAux_fuel (f : Nat) :
    ∀ a b r, b < 2 ^ f → gf256_mulAux (f + 1) a b r = gf256_mulAux f a b r := by
  induction f with
  | zero =>
    intro a b r hb
    have : b = 0 := by omega
    subst this
    simp [gf256_mulAux]
  | succ f ih =>
    intro a b r hb
    have h2 : b >>> 1 < 2 ^ f := by
      rw [Nat.shiftRight_eq_div_pow]
      have := Nat.pow_succ 2 f
      omega
    show gf256_mulAux (f + 1 + 1) a b r = gf256_mulAux (f + 1) a b r
    simp only [gf256_mulAux]
    exact ih _ _ _ h2

theorem gf256_mulAux_lt (fuel : Nat) :
    ∀ a b r, a < 256 → r < 256 → gf256_mulAux fuel a b r < 256 := by
  induction fuel with
  | zero => intro a b r _ hr; exact hr
  | succ f ih =>
    intro a b r ha hr
    simp only [gf256_mulAux]
    apply ih _ _ _ (gf256_xtime_lt a)
    split
    · exact Nat.xor_lt_two_pow (n := 8) hr ha
    · exact hr

/- ================= algebraic facts about gf256_mul ======================== -/

theorem gf256_zero_mul (b : Nat) : gf256_mul 0 b = 0 :=
  gf256_mulAux_zero_left 8 b 0

theorem gf256_mul_zero (a : Nat) : gf256_mul a 0 = 0 :=
  gf256_mulAux_zero_right 8 a 0

theorem gf256_mul_lt (a b : Nat) (ha : a < 256) : gf256_mul a b < 256 :=
  gf256_mulAux_lt 8 a b 0 ha (by norm_num)

theorem gf256_mul_add_left (x y b : Nat) :
    gf256_mul (x ^^^ y) b = gf256_mul x b ^^^ gf256_mul y b := by
  have h := gf256_mulAux_add_left 8 x y b 0 0
  simpa using h

theorem gf256_mul_add_right (a b c : Nat) :
    gf256_mul a (b ^^^ c) = gf256_mul a b ^^^ gf256_mul a c := by
  have h := gf256_mulAux_add_right 8 a b c 0 0
  simpa using h

theorem gf256_mul_xtime_left (a b : Nat) :
    gf256_mul (gf256_xtime a) b = gf256_xtime (gf256_mul a b) := by
  have h := gf256_mulAux_xtime 8 a b 0
  rwa [gf256_xtime_zero] at h

theorem gf256_mulAux_succ (f a b r : Nat) :
    gf256_mulAux (f + 1) a b r =
      gf256_mulAux f (gf256_xtime a) (b >>> 1) (if b &&& 1 = 1 then r ^^^ a else r) := rfl

theorem gf256_mul_two_right (a y : Nat) (hy : y < 128) :
    gf256_mul a (2 * y) = gf256_xtime (gf256_mul a y) := by
  have hband : 2 * y &&& 1 = 0 := by
    rw [Nat.and_one_is_mod]
    omega
  have hshift : (2 * y) >>> 1 = y := by
    rw [Nat.shiftRight_eq_div_pow]
    omega
  have step : gf256_mul a (2 * y) = gf256_mulAux 7 (gf256_xtime a) y 0 := by
    show gf256_mulAux (7 + 1) a (2 * y) 0 = _
    rw [gf256_mulAux_succ, hband, hshift]
    norm_num
  rw [step, ← gf256_mulAux_fuel 7 _ _ _ (show y < 2 ^ 7 by omega)]
  show gf256_mul (gf256_xtime a) y = _
  rw [gf256_mul_xtime_left]

theorem gf256_one_mul : ∀ b, b < 256 → gf256_mul 1 b = b := by decide

theorem gf256_mul_one : ∀ a, a < 256 → gf256_mul a 1 = a := by decide

theorem gf_xor_decomp (a : Nat) : a % 2 ^^^ 2 * (a / 2) = a := by
  rcases Nat.mod_two_eq_zero_or_one a with h | h
  · rw [h, Nat.zero_xor]
    omega
  · rw [h]
    have hx : 1 ^^^ 2 * (a / 2) = 2 * (a / 2) + 1 := by
      apply Nat.eq_of_testBit_eq
      intro i
      cases i with
      | zero =>
        simp only [Nat.testBit_zero, Nat.testBit_xor]
        norm_num
        omega
      | succ i =>
        rw [Nat.testBit_xor, Nat.testBit_succ, Nat.testBit_succ, Nat.testBit_succ]
        have h2 : 2 * (a / 2) / 2 = a / 2 := by omega
        have h3 : (2 * (a / 2) + 1) / 2 = a / 2 := by omega
        have h4 : (1 : Nat) / 2 = 0 := by norm_num
        rw [h2, h3, h4, Nat.zero_testBit]
        simp
    rw [hx]
    omega

theorem gf256_mul_comm (a : Nat) : ∀ b, a < 256 → b < 256 →
    gf256_mul a b = gf256_mul b a := by
  induction a using Nat.strong_induction_on with
  | _ a ih =>
    intro b ha hb
    rcases Nat.eq_zero_or_pos a with rfl | hpos
    · rw [gf256_zero_mul, gf256_mul_zero]
    · have hdec := gf_xor_decomp a
      have hhalf : a / 2 < 128 := by omega
      have hlt : a / 2 < a := Nat.div_lt_self hpos (by norm_num)
      rw [← hdec, gf256_mul_add_left, gf256_mul_add_right,
        ← gf256_xtime_of_lt _ hhalf, gf256_mul_xtime_left,
        gf256_xtime_of_lt _ hhalf, gf256_mul_two_right _ _ hhalf,
        ih (a / 2) hlt b (by omega) hb]
      rcases Nat.mod_two_eq_zero_or_one a with h | h
      · rw [h, gf256_zero_mul, gf256_mul_zero]
      · rw [h, gf256_one_mul b hb, gf256_mul_one b hb]

theorem gf256_mul_assoc (a : Nat) : ∀ b c, a < 256 → b < 256 →
    gf256_mul (gf256_mul a b) c = gf256_mul a (gf256_mul b c) := by
  induction a using Nat.strong_induction_on with
  | _ a ih =>
    intro b c ha hb
    rcases Nat.eq_zero_or_pos a with rfl | hpos
    · rw [gf256_zero_mul, gf256_zero_mul, gf256_zero_mul]
    · have hdec := gf_xor_decomp a
      have hhalf : a / 2 < 128 := by omega
      have hlt : a / 2 < a := Nat.div_lt_self hpos (by norm_num)
      rw [← hdec, gf256_mul_add_left, gf256_mul_add_left, gf256_mul_add_left,
        ← gf256_xtime_of_lt _ hhalf, gf256_mul_xtime_left, gf256_mul_xtime_left,
        gf256_mul_xtime_left, ih (a / 2) hlt b c (by omega) hb]
      congr 1
      rcases Nat.mod_two_eq_zero_or_one a with h | h
      · rw [h, gf256_zero_mul, gf256_zero_mul, gf256_zero_mul]
      · rw [h, gf256_one_mul b hb, gf256_one_mul (gf256_mul b c) (gf256_mul_lt b c hb)]

/- ================= generator facts (decided from the tables) ============== -/

theorem gexp_lt (i : Nat) : gexp i < 256 := by
  have h : gexp i ≤ 255 := Nat.and_le_right
  omega

theorem gexp_zero : gexp 0 = 1 := by decide

theorem gexp_succ : ∀ i, i < 254 → gexp (i + 1) = gf256_mul 3 (gexp i) := by decide

theorem gexp_wrap : gf256_mul 3 (gexp 254) = 1 := by decide

theorem gexp_pos : ∀ i, i < 255 → 0 < gexp i := by decide

theorem glog_gexp : ∀ a, a < 256 → 0 < a → glog a < 255 ∧ gexp (glog a) = a := by decide

/- ================= the field of GF(256) byte values ====================== -/

theorem gf256_powLoop_lt (fuel : Nat) :
    ∀ e base r, base < 256 → r < 256 → gf256_powLoop fuel e base r < 256 := by
  induction fuel with
  | zero => intro e base r _ hr; exact hr
  | succ f ih =>
    intro e base r hbase hr
    show gf256_powLoop (f + 1) e base r < 256
    rw [gf256_powLoop]
    split
    · exact hr
    · apply ih _ _ _ (gf256_mul_lt _ _ hbase)
      split
      · exact gf256_mul_lt _ _ hr
      · exact hr

theorem gf256_inv_lt (a : Nat) (ha : a < 256) : gf256_inv a < 256 := by
  unfold gf256_inv
  split
  · norm_num
  · exact gf256_powLoop_lt 8 254 a 1 ha (by norm_num)

/-- A byte value as a field element: a Nat below 256.  The gf256 operations
of the source act on the val component. -/
structure GF256 where
  val : Nat
  isLt : val < 256

theorem GF256.ext {a b : GF256} (h : a.val = b.val) : a = b := by
  cases a
  cases b
  simpa using h

instance : DecidableEq GF256 := fun a b =>
  if h : a.val = b.val then .isTrue (GF256.ext h)
  else .isFalse (fun hab => h (congrArg GF256.val hab))

instance : Zero GF256 := ⟨⟨0, by norm_num⟩⟩

instance : One GF256 := ⟨⟨1, by norm_num⟩⟩

instance : Add GF256 :=
  ⟨fun a b => ⟨gf256_add a.val b.val, Nat.xor_lt_two_pow (n := 8) a.isLt b.isLt⟩⟩

instance : Mul GF256 := ⟨fun a b => ⟨gf256_mul a.val b.val, gf256_mul_lt _ _ a.isLt⟩⟩

instance : Neg GF256 := ⟨fun a => a⟩

instance : Sub GF256 :=
  ⟨fun a b => ⟨gf256_sub a.val b.val, Nat.xor_lt_two_pow (n := 8) a.isLt b.isLt⟩⟩

instance : CommRing GF256 where
  add := (· + ·)
  mul := (· * ·)
  neg := (- ·)
  sub := (· - ·)
  add_assoc a b c := GF256.ext (Nat.xor_assoc _ _ _)
  zero_add a := GF256.ext (Nat.zero_xor _)
  add_zero a := GF256.ext (Nat.xor_zero _)
  add_comm a b := GF256.ext (Nat.xor_comm _ _)
  neg_add_cancel a := GF256.ext (Nat.xor_self _)
  sub_eq_add_neg a b := GF256.ext rfl
  mul_assoc a b c := GF256.ext (gf256_mul_assoc a.val b.val c.val a.isLt b.isLt)
  one_mul a := GF256.ext (gf256_one_mul a.val a.isLt)
  mul_one a := GF256.ext (gf256_mul_one a.val a.isLt)
  mul_comm a b := GF256.ext (gf256_mul_comm a.val b.val a.isLt b.isLt)
  left_distrib a b c := GF256.ext (gf256_mul_add_right a.val b.val c.val)
  right_distrib a b c := GF256.ext (gf256_mul_add_left a.val b.val c.val)
  zero_mul a := GF256.ext (gf256_zero_mul a.val)
  mul_zero a := GF256.ext (gf256_mul_zero a.val)
  nsmul := nsmulRec
  zsmul := zsmulRec

instance : Inv GF256 := ⟨fun a => ⟨gf256_inv a.val, gf256_inv_lt a.val a.isLt⟩⟩

theorem GF256.val_add (a b : GF256) : (a + b).val = gf256_add a.val b.val := rfl

theorem GF256.val_mul (a b : GF256) : (a * b).val = gf256_mul a.val b.val := rfl

theorem GF256.val_sub (a b : GF256) : (a - b).val = gf256_sub a.val b.val := rfl

theorem GF256.val_inv (a : GF256) : (a⁻¹).val = gf256_inv a.val := rfl

theorem GF256.val_zero : (0 : GF256).val = 0 := rfl

theorem GF256.val_one : (1 : GF256).val = 1 := rfl

/-- A Nat viewed as a GF256 element (byte reduction). -/
def gb (n : Nat) : GF256 := ⟨n % 256, Nat.mod_lt _ (by norm_num)⟩

theorem gb_val {n : Nat} (h : n < 256) : (gb n).val = n := Nat.mod_eq_of_lt h

theorem gb_val_self (a : GF256) : gb a.val = a :=
  GF256.ext (Nat.mod_eq_of_lt a.isLt)

theorem gb_zero : gb 0 = 0 := GF256.ext rfl

theorem gb_one : gb 1 = 1 := GF256.ext rfl

theorem gb_add {a b : Nat} (ha : a < 256) (hb : b < 256) :
    gb (gf256_add a b) = gb a + gb b := by
  apply GF256.ext
  simp only [GF256.val_add, gf256_add]
  rw [gb_val (Nat.xor_lt_two_pow (n := 8) ha hb), gb_val ha, gb_val hb]

theorem gb_mul {a b : Nat} (ha : a < 256) (hb : b < 256) :
    gb (gf256_mul a b) = gb a * gb b := by
  apply GF256.ext
  rw [GF256.val_mul, gb_val (gf256_mul_lt _ _ ha), gb_val ha, gb_val hb]

theorem gb_sub {a b : Nat} (ha : a < 256) (hb : b < 256) :
    gb (gf256_sub a b) = gb a - gb b := by
  apply GF256.ext
  simp only [GF256.val_sub, gf256_sub]
  rw [gb_val (Nat.xor_lt_two_pow (n := 8) ha hb), gb_val ha, gb_val hb]

theorem gb_inv {a : Nat} (ha : a < 256) : gb (gf256_inv a) = (gb a)⁻¹ := by
  apply GF256.ext
  rw [GF256.val_inv, gb_val (gf256_inv_lt _ ha), gb_val ha]

/-- Correctness of the shared square-and-multiply loop, stated in the field:
with enough fuel, the loop returns r times base to the e-th power. -/
theorem gf256_powLoop_spec (f : Nat) :
    ∀ e base r, e < 2 ^ f → base < 256 → r < 256 →
      gb (gf256_powLoop f e base r) = gb r * gb base ^ e := by
  induction f with
  | zero =>
    intro e base r he _ _
    have : e = 0 := by omega
    subst this
    simp [gf256_powLoop]
  | succ f ih =>
    intro e base r he hbase hr
    show gb (gf256_powLoop (f + 1) e base r) = _
    rw [gf256_powLoop]
    by_cases he0 : e = 0
    · subst he0
      simp
    · simp only [he0, if_neg, ite_false]
      have hshift : e >>> 1 = e / 2 := by
        rw [Nat.shiftRight_eq_div_pow]
      have hlt2 : e / 2 < 2 ^ f := by
        rw [Nat.pow_succ] at he
        omega
      have hsq : gb (gf256_mul base base) = gb base * gb base := gb_mul hbase hbase
      rcases Nat.mod_two_eq_zero_or_one e with hp | hp
      · have hband : ¬ (e &&& 1 = 1) := by
          rw [Nat.and_one_is_mod, hp]
          norm_num
        rw [if_neg hband, hshift, ih _ _ _ hlt2 (gf256_mul_lt _ _ hbase) hr, hsq,
          ← sq, ← pow_mul]
        have h2 : 2 * (e / 2) = e := by omega
        rw [h2]
      · have hband : e &&& 1 = 1 := by
          rw [Nat.and_one_is_mod, hp]
        rw [if_pos hband, hshift,
          ih _ _ _ hlt2 (gf256_mul_lt _ _ hbase) (gf256_mul_lt _ _ hr),
          gb_mul hr hbase, hsq, ← sq, ← pow_mul]
        have h2 : 2 * (e / 2) + 1 = e := by omega
        conv_rhs => rw [← h2]
        rw [pow_succ]
        ring

theorem gb_gexp_eq_pow : ∀ i, i ≤ 254 → gb (gexp i) = gb 3 ^ i := by
  intro i
  induction i with
  | zero =>
    intro _
    rw [gexp_zero, pow_zero, gb_one]
  | succ i ih =>
    intro hi
    rw [gexp_succ i (by omega), gb_mul (by norm_num) (gexp_lt i), ih (by omega),
      pow_succ]
    ring

theorem gb_three_pow_255 : gb 3 ^ 255 = 1 := by
  have h255 : (255 : ℕ) = 254 + 1 := by norm_num
  rw [h255, pow_succ, ← gb_gexp_eq_pow 254 (by omega), mul_comm,
    ← gb_mul (by norm_num) (gexp_lt 254), gexp_wrap, gb_one]

theorem GF256.pow_255_eq_one (x : GF256) (hx : x ≠ 0) : x ^ 255 = 1 := by
  have hvalpos : 0 < x.val := by
    rcases Nat.eq_zero_or_pos x.val with h | h
    · exact absurd (GF256.ext (h.trans GF256.val_zero.symm)) hx
    · exact h
  obtain ⟨hlog, hexp⟩ := glog_gexp x.val x.isLt hvalpos
  have hx3 : x = gb 3 ^ glog x.val := by
    rw [← gb_gexp_eq_pow _ (by omega), hexp, gb_val_self]
  rw [hx3, ← pow_mul, mul_comm, pow_mul, gb_three_pow_255, one_pow]

theorem GF256.inv_eq_pow_254 (x : GF256) (hx : x ≠ 0) : x⁻¹ = x ^ 254 := by
  have hvalne : x.val ≠ 0 := by
    intro h
    exact hx (GF256.ext (h.trans GF256.val_zero.symm))
  have h1 : x⁻¹ = gb (gf256_inv x.val) := by
    rw [gb_inv x.isLt, gb_val_self]
  rw [h1]
  unfold gf256_inv
  rw [if_neg hvalne]
  rw [gf256_powLoop_spec 8 254 x.val 1 (by norm_num) x.isLt (by norm_num)]
  rw [gb_one, gb_val_self, one_mul]

theorem GF256.mul_inv_cancel_thm (x : GF256) (hx : x ≠ 0) : x * x⁻¹ = 1 := by
  rw [GF256.inv_eq_pow_254 x hx, ← pow_succ']
  exact GF256.pow_255_eq_one x hx

instance : Field GF256 where
  inv := Inv.inv
  exists_pair_ne := ⟨0, 1, fun h => by simpa using congrArg GF256.val h⟩
  mul_inv_cancel := GF256.mul_inv_cancel_thm
  inv_zero := GF256.ext rfl
  nnqsmul := _
  qsmul := _

/- ================= bridge to Mathlib polynomials ========================= -/

/-- The polynomial with the given (low-to-high) coefficient list. -/
noncomputable def toPoly (l : List GF256) : Polynomial GF256 :=
  l.foldr (fun a p => Polynomial.C a + Polynomial.X * p) 0

theorem toPoly_coeff (l : List GF256) : ∀ m, (toPoly l).coeff m = l.getD m 0 := by
  induction l with
  | nil =>
    intro m
    simp [toPoly]
  | cons a t ih =>
    intro m
    cases m with
    | zero =>
      simp [toPoly, Polynomial.coeff_add, Polynomial.coeff_C_zero,
        Polynomial.coeff_X_mul_zero]
    | succ m =>
      show (Polynomial.C a + Polynomial.X * toPoly t).coeff (m + 1) = _
      rw [Polynomial.coeff_add, Polynomial.coeff_X_mul, Polynomial.coeff_C,
        if_neg (by omega)]
      rw [ih m]
      simp

theorem toPoly_degree_lt (l : List GF256) (n : Nat) (h : l.length ≤ n) :
    (toPoly l).degree < (n : WithBot Nat) := by
  rw [Polynomial.degree_lt_iff_coeff_zero]
  intro m hm
  rw [toPoly_coeff]
  apply List.getD_eq_default
  omega

theorem toPoly_eval_zero (l : List GF256) :
    (toPoly l).eval 0 = l.getD 0 0 := by
  cases l with
  | nil => simp [toPoly]
  | cons a t =>
    show (Polynomial.C a + Polynomial.X * toPoly t).eval 0 = a
    simp

theorem sss_polynomial_evaluate_lt (l : List Nat) (x : Nat)
    (hl : ∀ b ∈ l, b < 256) : sss_polynomial_evaluate l x < 256 := by
  induction l with
  | nil => norm_num [sss_polynomial_evaluate]
  | cons a t ih =>
    show gf256_add (gf256_mul (sss_polynomial_evaluate t x) x) a < 256
    have ha : a < 256 := hl a (List.mem_cons_self a t)
    have ht : sss_polynomial_evaluate t x < 256 :=
      ih (fun b hb => hl b (List.mem_cons_of_mem a hb))
    exact Nat.xor_lt_two_pow (n := 8) (gf256_mul_lt _ _ ht) ha

theorem gb_evaluate (l : List Nat) (x : Nat) (hl : ∀ b ∈ l, b < 256)
    (hx : x < 256) :
    gb (sss_polynomial_evaluate l x) = (toPoly (l.map gb)).eval (gb x) := by
  induction l with
  | nil =>
    show gb 0 = (toPoly []).eval (gb x)
    simp [toPoly, gb_zero]
  | cons a t ih =>
    have ha : a < 256 := hl a (List.mem_cons_self a t)
    have htl : ∀ b ∈ t, b < 256 := fun b hb => hl b (List.mem_cons_of_mem a hb)
    have ht : sss_polynomial_evaluate t x < 256 := sss_polynomial_evaluate_lt t x htl
    have hu1 : sss_polynomial_evaluate (a :: t) x =
        gf256_add (gf256_mul (sss_polynomial_evaluate t x) x) a := rfl
    have hu2 : toPoly (List.map gb (a :: t)) =
        Polynomial.C (gb a) + Polynomial.X * toPoly (t.map gb) := rfl
    rw [hu1, hu2, gb_add (gf256_mul_lt _ _ ht) ha, gb_mul ht hx, ih htl]
    simp only [Polynomial.eval_add, Polynomial.eval_C, Polynomial.eval_mul,
      Polynomial.eval_X]
    ring

/- ================= Lagrange interpolation at zero ======================== -/

theorem gf256_neg_eq (x : GF256) : -x = x := GF256.ext rfl

theorem lagrange_eval_zero (n : Nat) (v : Nat → GF256) (f : Polynomial GF256)
    (hv : Set.InjOn v (Finset.range n))
    (hdeg : f.degree < (n : WithBot Nat)) :
    ∑ i ∈ Finset.range n, f.eval (v i) *
      ∏ j ∈ (Finset.range n).erase i, (v j * (v j - v i)⁻¹) = f.eval 0 := by
  have hinterp := Lagrange.eq_interpolate (v := v) (s := Finset.range n) hv
    (by rw [Finset.card_range]; exact hdeg)
  conv_rhs => rw [hinterp]
  rw [Lagrange.interpolate_apply, Polynomial.eval_finset_sum]
  apply Finset.sum_congr rfl
  intro i _
  rw [Polynomial.eval_mul, Polynomial.eval_C]
  congr 1
  rw [Lagrange.basis, Polynomial.eval_prod]
  apply Finset.prod_congr rfl
  intro j _
  rw [Lagrange.basisDivisor, Polynomial.eval_mul, Polynomial.eval_C,
    Polynomial.eval_sub, Polynomial.eval_X, Polynomial.eval_C, zero_sub,
    gf256_neg_eq]
  have hswap : v i - v j = v j - v i := by
    have h1 : v i - v j = -(v j - v i) := by ring
    rw [h1, gf256_neg_eq]
  rw [hswap]
  ring

/- ================= bridging the C fold loops to Finset sums ============== -/

theorem gf256_div_lt (a b : Nat) (ha : a < 256) : gf256_div a b < 256 := by
  unfold gf256_div
  split
  · norm_num
  · exact gf256_mul_lt _ _ ha

theorem foldl_add_lt (h : Nat → Nat) :
    ∀ (l : List Nat) (acc : Nat), acc < 256 → (∀ i ∈ l, h i < 256) →
      List.foldl (fun s i => gf256_add s (h i)) acc l < 256 := by
  intro l
  induction l with
  | nil => intro acc hacc _; exact hacc
  | cons x t ih =>
    intro acc hacc hl
    show List.foldl _ (gf256_add acc (h x)) t < 256
    exact ih _ (Nat.xor_lt_two_pow (n := 8) hacc (hl x (List.mem_cons_self x t)))
      (fun i hi => hl i (List.mem_cons_of_mem x hi))

theorem foldl_mulskip_lt (h : Nat → Nat) (i : Nat) :
    ∀ (l : List Nat) (acc : Nat), acc < 256 →
      List.foldl (fun b j => if i = j then b else gf256_mul b (h j)) acc l < 256 := by
  intro l
  induction l with
  | nil => intro acc hacc; exact hacc
  | cons x t ih =>
    intro acc hacc
    show List.foldl _ (if i = x then acc else gf256_mul acc (h x)) t < 256
    apply ih
    split
    · exact hacc
    · exact gf256_mul_lt _ _ hacc

theorem gb_foldl_add (h : Nat → Nat) :
    ∀ (n : Nat) (acc : Nat), acc < 256 → (∀ i, i < n → h i < 256) →
      gb ((List.range n).foldl (fun s i => gf256_add s (h i)) acc) =
        gb acc + ∑ i ∈ Finset.range n, gb (h i) := by
  intro n
  induction n with
  | zero =>
    intro acc hacc _
    simp
  | succ n ih =>
    intro acc hacc hb
    rw [List.range_succ, List.foldl_append]
    show gb (gf256_add ((List.range n).foldl _ acc) (h n)) = _
    rw [gb_add (foldl_add_lt h _ _ hacc (fun i hi => hb i (by
        have := List.mem_range.mp hi
        omega))) (hb n (by omega)),
      ih acc hacc (fun i hi => hb i (by omega)), Finset.sum_range_succ, add_assoc]

theorem gb_foldl_mulskip (h : Nat → Nat) (i : Nat) :
    ∀ (n : Nat) (acc : Nat), acc < 256 → (∀ j, j < n → j ≠ i → h j < 256) →
      gb ((List.range n).foldl
          (fun b j => if i = j then b else gf256_mul b (h j)) acc) =
        gb acc * ∏ j ∈ (Finset.range n).erase i, gb (h j) := by
  intro n
  induction n with
  | zero =>
    intro acc hacc _
    simp
  | succ n ih =>
    intro acc hacc hb
    rw [List.range_succ, List.foldl_append]
    show gb (if i = n then (List.range n).foldl _ acc
      else gf256_mul ((List.range n).foldl _ acc) (h n)) = _
    by_cases hin : i = n
    · subst hin
      rw [if_pos rfl, ih acc hacc (fun j hj hji => hb j (by omega) hji)]
      congr 1
      rw [Finset.range_succ, Finset.erase_insert (Finset.not_mem_range_self),
        Finset.erase_eq_of_not_mem (Finset.not_mem_range_self)]
    · rw [if_neg hin,
        gb_mul (foldl_mulskip_lt h i _ _ hacc) (hb n (by omega) (fun hc => hin hc.symm)),
        ih acc hacc (fun j hj hji => hb j (by omega) hji)]
      rw [Finset.range_succ, Finset.erase_insert_of_ne (fun hc => hin hc.symm),
        Finset.prod_insert (fun hc => Finset.not_mem_range_self (Finset.mem_of_mem_erase hc))]
      ring

theorem gb_inj {u w : Nat} (hu : u < 256) (hw : w < 256) (h : gb u = gb w) :
    u = w := by
  have := congrArg GF256.val h
  rwa [gb_val hu, gb_val hw] at this

theorem gb_interpolate (xs ys : List Nat) (n : Nat)
    (hxs : ∀ j, j < n → xs.getD j 0 < 256)
    (hys : ∀ j, j < n → ys.getD j 0 < 256)
    (hdist : ∀ i j, i < n → j < n → i ≠ j → xs.getD i 0 ≠ xs.getD j 0) :
    gb (sss_polynomial_interpolate xs ys n) =
      ∑ i ∈ Finset.range n, gb (ys.getD i 0) *
        ∏ j ∈ (Finset.range n).erase i,
          (gb (xs.getD j 0) * (gb (xs.getD j 0) - gb (xs.getD i 0))⁻¹) := by
  unfold sss_polynomial_interpolate
  rw [gb_foldl_add (fun i => gf256_mul (ys.getD i 0)
      ((List.range n).foldl (fun basis j =>
        if i = j then basis
        else gf256_mul basis (gf256_div (xs.getD j 0)
          (gf256_sub (xs.getD j 0) (xs.getD i 0)))) 1)) n 0 (by norm_num)
    (fun i hi => gf256_mul_lt _ _ (hys i hi)), gb_zero, zero_add]
  apply Finset.sum_congr rfl
  intro i hi
  have hin : i < n := Finset.mem_range.mp hi
  rw [gb_mul (hys i hin) (foldl_mulskip_lt _ i _ _ (by norm_num)),
    gb_foldl_mulskip (fun j => gf256_div (xs.getD j 0)
      (gf256_sub (xs.getD j 0) (xs.getD i 0))) i n 1 (by norm_num)
    (fun j hj hji => gf256_div_lt _ _ (hxs j hj)), gb_one, one_mul]
  congr 1
  apply Finset.prod_congr rfl
  intro j hj
  have hjn : j < n := Finset.mem_range.mp (Finset.mem_of_mem_erase hj)
  have hji : j ≠ i := Finset.ne_of_mem_erase hj
  have hsublt : gf256_sub (xs.getD j 0) (xs.getD i 0) < 256 :=
    Nat.xor_lt_two_pow (n := 8) (hxs j hjn) (hxs i hin)
  have hne : gf256_sub (xs.getD j 0) (xs.getD i 0) ≠ 0 := by
    unfold gf256_sub
    intro hc
    exact hdist j i hjn hin hji (Nat.xor_eq_zero.mp hc)
  unfold gf256_div
  rw [if_neg hne, gb_mul (hxs j hjn) (gf256_inv_lt _ hsublt), gb_inv hsublt,
    gb_sub (hxs j hjn) (hxs i hin)]

theorem getD_head_lt (coeffs : List Nat) (hcb : ∀ b ∈ coeffs, b < 256) :
    coeffs.getD 0 0 < 256 := by
  cases coeffs with
  | nil => norm_num
  | cons c t => exact hcb c (List.mem_cons_self c t)

/-- Core correctness of Lagrange reconstruction: interpolating, at n distinct
byte abscissas, the Horner evaluations of a polynomial with at most n byte
coefficients returns the constant coefficient. -/
theorem interpolate_of_evaluations (coeffs xs ys : List Nat) (n : Nat)
    (hcb : ∀ b ∈ coeffs, b < 256)
    (hcl : coeffs.length ≤ n)
    (hxs : ∀ j, j < n → xs.getD j 0 < 256)
    (hdist : ∀ i j, i < n → j < n → i ≠ j → xs.getD i 0 ≠ xs.getD j 0)
    (hys : ∀ j, j < n → ys.getD j 0 = sss_polynomial_evaluate coeffs (xs.getD j 0)) :
    sss_polynomial_interpolate xs ys n = coeffs.getD 0 0 := by
  have hys_lt : ∀ j, j < n → ys.getD j 0 < 256 := by
    intro j hj
    rw [hys j hj]
    exact sss_polynomial_evaluate_lt _ _ hcb
  have hinterp_lt : sss_polynomial_interpolate xs ys n < 256 := by
    unfold sss_polynomial_interpolate
    apply foldl_add_lt _ _ _ (by norm_num)
    intro i hi
    exact gf256_mul_lt _ _ (hys_lt i (List.mem_range.mp hi))
  apply gb_inj hinterp_lt (getD_head_lt coeffs hcb)
  rw [gb_interpolate xs ys n hxs hys_lt hdist]
  have hv : Set.InjOn (fun i => gb (xs.getD i 0)) (Finset.range n) := by
    intro i hi j hj hij
    by_contra hne
    exact hdist i j (Finset.mem_range.mp (Finset.mem_coe.mp hi))
      (Finset.mem_range.mp (Finset.mem_coe.mp hj)) hne
      (gb_inj (hxs i (Finset.mem_range.mp (Finset.mem_coe.mp hi)))
        (hxs j (Finset.mem_range.mp (Finset.mem_coe.mp hj))) hij)
  have hdeg : (toPoly (coeffs.map gb)).degree < (n : WithBot Nat) := by
    apply toPoly_degree_lt
    rw [List.length_map]
    exact hcl
  have hsum := lagrange_eval_zero n (fun i => gb (xs.getD i 0))
    (toPoly (coeffs.map gb)) hv hdeg
  have hterm : ∀ i ∈ Finset.range n,
      gb (ys.getD i 0) *
        ∏ j ∈ (Finset.range n).erase i,
          (gb (xs.getD j 0) * (gb (xs.getD j 0) - gb (xs.getD i 0))⁻¹) =
      (toPoly (coeffs.map gb)).eval (gb (xs.getD i 0)) *
        ∏ j ∈ (Finset.range n).erase i,
          (gb (xs.getD j 0) * (gb (xs.getD j 0) - gb (xs.getD i 0))⁻¹) := by
    intro i hi
    rw [hys i (Finset.mem_range.mp hi),
      gb_evaluate coeffs _ hcb (hxs i (Finset.mem_range.mp hi))]
  rw [Finset.sum_congr rfl hterm, hsum, toPoly_eval_zero]
  cases coeffs with
  | nil => exact gb_zero.symm
  | cons c t => rfl

/- ================= combine on well-formed share batches ================== -/

theorem getD_eq_getElem {α : Type} (l : List α) (i : Nat) (d : α)
    (h : i < l.length) : l.getD i d = l[i] := by
  rw [List.getD_eq_getElem?_getD, List.getElem?_eq_getElem h]
  rfl

theorem getD_map_range {α : Type} (f : Nat → α) {n p : Nat} (hp : p < n) (d : α) :
    ((List.range n).map f).getD p d = f p := by
  rw [List.getD_eq_getElem?_getD, List.getElem?_map, List.getElem?_range hp]
  rfl

/-- Behaviour of sss_combine_shares when every check passes: a nonempty batch
of shares agreeing on threshold and data_len, with at least threshold many
members, pairwise distinct indices, and a large enough output buffer,
combines into the list of per-byte interpolations. -/
theorem sss_combine_shares_ok (shares : List sss_share_t) (buf : Nat)
    (hne : shares.length ≠ 0)
    (ht : ∀ s ∈ shares, s.threshold = (shares.headD default).threshold)
    (hL : ∀ s ∈ shares, s.data_len = (shares.headD default).data_len)
    (hlen : (shares.headD default).threshold ≤ shares.length)
    (hnd : (shares.map (fun s => s.index)).Nodup)
    (hbuf : (shares.headD default).data_len ≤ buf) :
    sss_combine_shares shares buf =
      .ok ((List.range (shares.headD default).data_len).map (fun j =>
        sss_polynomial_interpolate (shares.map (fun s => s.index))
          (shares.map (fun s => s.data.getD j 0)) shares.length)) := by
  unfold sss_combine_shares
  rw [if_neg hne, if_neg (by omega)]
  rw [if_neg (show ¬ ((shares.drop 1).any (fun s =>
      decide (s.threshold ≠ (shares.headD default).threshold ∨
        s.data_len ≠ (shares.headD default).data_len)) = true) from ?hany)]
  rw [if_neg (show ¬ ¬ (shares.map (fun s => s.index)).Nodup from not_not.mpr hnd)]
  rw [if_neg (by omega)]
  case hany =>
    rw [List.any_eq_true]
    rintro ⟨s, hs, hdec⟩
    have hmem : s ∈ shares := List.drop_subset 1 shares hs
    rw [decide_eq_true_eq] at hdec
    rcases hdec with h | h
    · exact h (ht s hmem)
    · exact h (hL s hmem)

/- ================= split: explicit form of the produced shares =========== -/

theorem validate_share_params_ok (secret_len threshold num_shares : Nat)
    (h1 : 1 ≤ secret_len) (h2 : secret_len ≤ 1024) (h3 : 2 ≤ threshold)
    (h4 : threshold ≤ num_shares) (h5 : num_shares ≤ 255) :
    validate_share_params secret_len threshold num_shares = SSS_OK := by
  unfold validate_share_params
  rw [if_neg (by simp [SSS_MAX_SECRET_SIZE]; omega),
    if_neg (by simp [SSS_MIN_THRESHOLD]; omega), if_neg (by omega),
    if_neg (by simp [SSS_MAX_SHARES]; omega)]

/-- The share written for party position i (0-based) by sss_create_shares. -/
def sss_share_of (secret : List Nat) (secret_len threshold : Nat)
    (rand : Nat → Nat → Nat) (i : Nat) : sss_share_t :=
  { index := i + 1
    threshold := threshold
    data := (List.range secret_len).map (fun j =>
      sss_polynomial_evaluate
        (sss_polynomial_coeffs (rand j) (secret.getD j 0) (threshold - 1)) (i + 1))
    data_len := secret_len }

theorem sss_create_shares_eq (secret : List Nat)
    (secret_len threshold num_shares : Nat) (rand : Nat → Nat → Nat)
    (h1 : 1 ≤ secret_len) (h2 : secret_len ≤ 1024) (h3 : 2 ≤ threshold)
    (h4 : threshold ≤ num_shares) (h5 : num_shares ≤ 255) :
    sss_create_shares secret secret_len threshold num_shares rand =
      .ok ((List.range num_shares).map
        (sss_share_of secret secret_len threshold rand)) := by
  unfold sss_create_shares
  rw [validate_share_params_ok secret_len threshold num_shares h1 h2 h3 h4 h5]
  rw [if_neg (by simp), if_neg (by omega)]
  rfl

/-- Round trip at the SSS layer: combining any selection (by 0-based
positions sel, pairwise distinct, at least threshold many) of the shares
written by sss_create_shares recovers the secret prefix of length
secret_len, for every choice of the coefficient oracle. -/
theorem sss_roundtrip (secret : List Nat) (secret_len threshold num_shares : Nat)
    (rand : Nat → Nat → Nat) (sel : List Nat) (buf : Nat)
    (h1 : 1 ≤ secret_len) (h2 : secret_len ≤ 1024) (h3 : 2 ≤ threshold)
    (h4 : threshold ≤ num_shares) (h5 : num_shares ≤ 255)
    (hsec : ∀ j, j < secret_len → secret.getD j 0 < 256)
    (hrand : ∀ j i, rand j i < 256)
    (hnd : sel.Nodup) (hlen : threshold ≤ sel.length)
    (hmem : ∀ p ∈ sel, p < num_shares)
    (hbuf : secret_len ≤ buf) :
    sss_combine_shares
        (sel.map (sss_share_of secret secret_len threshold rand)) buf =
      .ok ((List.range secret_len).map (fun j => secret.getD j 0)) := by
  rcases sel with _ | ⟨p0, rest⟩
  · simp at hlen
    omega
  set F := sss_share_of secret secret_len threshold rand with hF
  set sel := p0 :: rest with hsel
  have hselne : sel ≠ [] := by simp [hsel]
  have hshlen : (sel.map F).length = sel.length := List.length_map _ _
  have hhead : (sel.map F).headD default = F p0 := by rw [hsel]; rfl
  have hheadt : ((sel.map F).headD default).threshold = threshold := by
    rw [hhead]; rfl
  have hheadL : ((sel.map F).headD default).data_len = secret_len := by
    rw [hhead]; rfl
  have hidx : (sel.map F).map (fun s => s.index) = sel.map (fun p => p + 1) := by
    rw [List.map_map]
    rfl
  have hcomb := sss_combine_shares_ok (sel.map F) buf
    (by rw [hshlen]; intro hc; rw [hc] at hlen; omega)
    (by
      intro s hs
      rcases List.mem_map.mp hs with ⟨p, _, rfl⟩
      rw [hheadt]
      rfl)
    (by
      intro s hs
      rcases List.mem_map.mp hs with ⟨p, _, rfl⟩
      rw [hheadL]
      rfl)
    (by rw [hheadt, hshlen]; exact hlen)
    (by
      rw [hidx]
      exact hnd.map (fun a b hab => by omega))
    (by rw [hheadL]; exact hbuf)
  rw [hcomb, hheadL, hshlen]
  congr 1
  apply List.map_congr_left
  intro j hj
  have hjlen : j < secret_len := List.mem_range.mp hj
  apply interpolate_of_evaluations
    (sss_polynomial_coeffs (rand j) (secret.getD j 0) (threshold - 1))
  · intro b hb
    rcases List.mem_cons.mp hb with rfl | hb2
    · exact hsec j hjlen
    · rcases List.mem_map.mp hb2 with ⟨i, _, rfl⟩
      exact hrand j (i + 1)
  · show (sss_polynomial_coeffs (rand j) (secret.getD j 0) (threshold - 1)).length ≤ _
    simp [sss_polynomial_coeffs]
    omega
  · intro i hi
    rw [hidx, getD_eq_getElem _ _ _ (by rw [List.length_map]; exact hi),
      List.getElem_map]
    have hpm : sel[i] < num_shares := hmem sel[i] (sel.getElem_mem hi)
    omega
  · intro i k hi hk hik
    rw [hidx, getD_eq_getElem _ _ _ (by rw [List.length_map]; exact hi),
      getD_eq_getElem _ _ _ (by rw [List.length_map]; exact hk),
      List.getElem_map, List.getElem_map]
    intro hc
    have heq : sel[i] = sel[k] := by omega
    exact hik (hnd.getElem_inj_iff.mp heq)
  · intro i hi
    have hys1 : (List.map (fun s => s.data.getD j 0) (List.map F sel)).getD i 0
        = (F sel[i]).data.getD j 0 := by
      rw [getD_eq_getElem _ _ _
          (by rw [List.length_map, List.length_map]; exact hi),
        List.getElem_map, List.getElem_map]
    have hxs1 : (List.map (fun s => s.index) (List.map F sel)).getD i 0
        = sel[i] + 1 := by
      rw [getD_eq_getElem _ _ _
          (by rw [List.length_map, List.length_map]; exact hi),
        List.getElem_map, List.getElem_map, hF]
      rfl
    rw [hys1, hxs1, hF]
    simp only [sss_share_of]
    rw [getD_map_range _ hjlen]

/- ============= general combine lemma over polynomial families ============ -/

/-- General form of interpolation correctness: if the ys are (images of)
evaluations of any polynomial f of degree below n at the distinct byte
abscissas xs, the interpolation loop returns the byte whose image is
f at zero. -/
theorem interpolate_of_poly (f : Polynomial GF256) (xs ys : List Nat)
    (n w : Nat)
    (hdeg : f.degree < (n : WithBot Nat))
    (hxs : ∀ j, j < n → xs.getD j 0 < 256)
    (hdist : ∀ i j, i < n → j < n → i ≠ j → xs.getD i 0 ≠ xs.getD j 0)
    (hys : ∀ j, j < n → ys.getD j 0 < 256 ∧
      gb (ys.getD j 0) = f.eval (gb (xs.getD j 0)))
    (hw : w < 256) (hfw : gb w = f.eval 0) :
    sss_polynomial_interpolate xs ys n = w := by
  have hys_lt : ∀ j, j < n → ys.getD j 0 < 256 := fun j hj => (hys j hj).1
  have hinterp_lt : sss_polynomial_interpolate xs ys n < 256 := by
    unfold sss_polynomial_interpolate
    apply foldl_add_lt _ _ _ (by norm_num)
    intro i hi
    exact gf256_mul_lt _ _ (hys_lt i (List.mem_range.mp hi))
  apply gb_inj hinterp_lt hw
  rw [gb_interpolate xs ys n hxs hys_lt hdist]
  have hv : Set.InjOn (fun i => gb (xs.getD i 0)) (Finset.range n) := by
    intro i hi j hj hij
    by_contra hne
    exact hdist i j (Finset.mem_range.mp (Finset.mem_coe.mp hi))
      (Finset.mem_range.mp (Finset.mem_coe.mp hj)) hne
      (gb_inj (hxs i (Finset.mem_range.mp (Finset.mem_coe.mp hi)))
        (hxs j (Finset.mem_range.mp (Finset.mem_coe.mp hj))) hij)
  have hsum := lagrange_eval_zero n (fun i => gb (xs.getD i 0)) f hv hdeg
  have hterm : ∀ i ∈ Finset.range n,
      gb (ys.getD i 0) *
        ∏ j ∈ (Finset.range n).erase i,
          (gb (xs.getD j 0) * (gb (xs.getD j 0) - gb (xs.getD i 0))⁻¹) =
      f.eval (gb (xs.getD i 0)) *
        ∏ j ∈ (Finset.range n).erase i,
          (gb (xs.getD j 0) * (gb (xs.getD j 0) - gb (xs.getD i 0))⁻¹) := by
    intro i hi
    rw [(hys i (Finset.mem_range.mp hi)).2]
  rw [Finset.sum_congr rfl hterm, hsum, hfw]

/-- General combine correctness: a batch of shares taken at distinct
positions sel whose byte j carries (the value whose image is) the evaluation
of a polynomial f j of degree below the batch size at the share index p+1
combines to the bytes whose images are the f j at zero. -/
theorem sss_combine_shares_family (v : Nat → Nat → Nat) (w : Nat → Nat)
    (f : Nat → Polynomial GF256) (sel : List Nat) (t L buf : Nat)
    (hsne : sel ≠ [])
    (ht : t ≤ sel.length)
    (hnd : sel.Nodup)
    (hmem : ∀ p ∈ sel, p ≤ 254)
    (hbuf : L ≤ buf)
    (hdeg : ∀ j, j < L → (f j).degree < (sel.length : WithBot Nat))
    (hv : ∀ p ∈ sel, ∀ j, j < L → v p j < 256 ∧
      gb (v p j) = (f j).eval (gb (p + 1)))
    (hw : ∀ j, j < L → w j < 256 ∧ gb (w j) = (f j).eval 0) :
    sss_combine_shares (sel.map (fun p =>
      ({ index := p + 1
         threshold := t
         data := (List.range L).map (fun j => v p j)
         data_len := L } : sss_share_t))) buf =
      .ok ((List.range L).map (fun j => w j)) := by
  rcases sel with _ | ⟨p0, rest⟩
  · simp at hsne
  set G : Nat → sss_share_t := fun p =>
    { index := p + 1
      threshold := t
      data := (List.range L).map (fun j => v p j)
      data_len := L } with hG
  set sel := p0 :: rest with hsel
  have hshlen : (sel.map G).length = sel.length := List.length_map _ _
  have hhead : (sel.map G).headD default = G p0 := by rw [hsel]; rfl
  have hheadt : ((sel.map G).headD default).threshold = t := by rw [hhead]
  have hheadL : ((sel.map G).headD default).data_len = L := by rw [hhead]
  have hidx : (sel.map G).map (fun s => s.index) = sel.map (fun p => p + 1) := by
    rw [List.map_map]
    rfl
  have hcomb := sss_combine_shares_ok (sel.map G) buf
    (by rw [hshlen]; simp [hsel])
    (by
      intro s hs
      rcases List.mem_map.mp hs with ⟨p, _, rfl⟩
      rw [hheadt])
    (by
      intro s hs
      rcases List.mem_map.mp hs with ⟨p, _, rfl⟩
      rw [hheadL])
    (by rw [hheadt, hshlen]; exact ht)
    (by
      rw [hidx]
      exact hnd.map (fun a b hab => by omega))
    (by rw [hheadL]; exact hbuf)
  rw [hcomb, hheadL, hshlen]
  congr 1
  apply List.map_congr_left
  intro j hj
  have hjlen : j < L := List.mem_range.mp hj
  apply interpolate_of_poly (f j) _ _ _ _ (hdeg j hjlen)
  · intro i hi
    rw [hidx, getD_eq_getElem _ _ _ (by rw [List.length_map]; exact hi),
      List.getElem_map]
    have hpm : sel[i] ≤ 254 := hmem sel[i] (sel.getElem_mem hi)
    omega
  · intro i k hi hk hik
    rw [hidx, getD_eq_getElem _ _ _ (by rw [List.length_map]; exact hi),
      getD_eq_getElem _ _ _ (by rw [List.length_map]; exact hk),
      List.getElem_map, List.getElem_map]
    intro hc
    have heq : sel[i] = sel[k] := by omega
    exact hik (hnd.getElem_inj_iff.mp heq)
  · intro i hi
    have hys1 : (List.map (fun s => s.data.getD j 0) (List.map G sel)).getD i 0
        = (G sel[i]).data.getD j 0 := by
      rw [getD_eq_getElem _ _ _
          (by rw [List.length_map, List.length_map]; exact hi),
        List.getElem_map, List.getElem_map]
    have hxs1 : (List.map (fun s => s.index) (List.map G sel)).getD i 0
        = sel[i] + 1 := by
      rw [getD_eq_getElem _ _ _
          (by rw [List.length_map, List.length_map]; exact hi),
        List.getElem_map, List.getElem_map, hG]
    have hdata : (G sel[i]).data.getD j 0 = v sel[i] j := by
      rw [hG]
      show ((List.range L).map (fun jj => v sel[i] jj)).getD j 0 = _
      rw [getD_map_range _ hjlen]
    rw [hys1, hxs1, hdata]
    exact hv sel[i] (sel.getElem_mem hi) j hjlen
  · exact (hw j hjlen).1
  · exact (hw j hjlen).2

/- ================= MPC layer support lemmas ============================== -/

theorem mpc_validate_share_eq_zero_iff (ctx : mpc_context_t) (m : mpc_share_t) :
    mpc_validate_share ctx m = 0 ↔
      (1 ≤ m.party_id ∧ m.party_id ≤ ctx.num_parties ∧
        m.computation_id = ctx.computation_id ∧
        m.share.data_len = ctx.value_size) := by
  unfold mpc_validate_share
  split_ifs with hA hB hC
  · constructor
    · intro hc
      exact absurd hc (by norm_num)
    · intro ⟨h1, h2, _, _⟩
      omega
  · constructor
    · intro hc
      exact absurd hc (by norm_num)
    · intro ⟨_, _, h3, _⟩
      exact hB h3
  · constructor
    · intro hc
      exact absurd hc (by norm_num)
    · intro ⟨_, _, _, h4⟩
      exact hC h4
  · constructor
    · intro _
      refine ⟨by omega, by omega, not_not.mp hB, not_not.mp hC⟩
    · intro _
      rfl

theorem mpc_create_shares_eq (ctx : mpc_context_t) (secret : List Nat)
    (rand : Nat → Nat → Nat) (hwf : mpc_context_wf ctx) :
    mpc_create_shares ctx secret rand =
      .ok ((List.range ctx.num_parties).map (fun i =>
        ({ share := sss_share_of secret ctx.value_size ctx.threshold rand i
           party_id := i + 1
           computation_id := ctx.computation_id } : mpc_share_t))) := by
  obtain ⟨hN1, hN2, hK1, hK2, hL1, hL2⟩ := hwf
  unfold mpc_create_shares
  rw [sss_create_shares_eq secret ctx.value_size ctx.threshold ctx.num_parties rand
    hL1 hL2 hK1 hK2 hN2]
  refine congrArg Except.ok ?_
  apply List.map_congr_left
  intro i hi
  rw [getD_map_range _ (List.mem_range.mp hi)]

/-- Degree bound in the "at most" form, for products. -/
theorem toPoly_degree_le (l : List GF256) (n : Nat) (h : l.length ≤ n + 1) :
    (toPoly l).degree ≤ (n : WithBot Nat) := by
  rw [Polynomial.degree_le_iff_coeff_zero]
  intro m hm
  rw [toPoly_coeff]
  apply List.getD_eq_default
  have hnm : (n : WithBot Nat) < (m : WithBot Nat) → n < m := by
    intro hc
    exact_mod_cast hc
  have := hnm hm
  omega

/-- The byte-j polynomial of a split of the given secret. -/
noncomputable def sharePoly (secret : List Nat) (threshold : Nat)
    (rand : Nat → Nat → Nat) (j : Nat) : Polynomial GF256 :=
  toPoly ((sss_polynomial_coeffs (rand j) (secret.getD j 0) (threshold - 1)).map gb)

theorem sss_polynomial_coeffs_length (rand : Nat → Nat) (secret degree : Nat) :
    (sss_polynomial_coeffs rand secret degree).length = degree + 1 := by
  simp [sss_polynomial_coeffs]

theorem sss_polynomial_coeffs_lt (rand : Nat → Nat) (secret degree : Nat)
    (hs : secret < 256) (hr : ∀ i, rand i < 256) :
    ∀ b ∈ sss_polynomial_coeffs rand secret degree, b < 256 := by
  intro b hb
  rcases List.mem_cons.mp hb with rfl | hb2
  · exact hs
  · rcases List.mem_map.mp hb2 with ⟨i, _, rfl⟩
    exact hr (i + 1)

theorem sharePoly_degree_le (secret : List Nat) (threshold : Nat)
    (rand : Nat → Nat → Nat) (j : Nat) (ht : 1 ≤ threshold) :
    (sharePoly secret threshold rand j).degree ≤ ((threshold - 1 : Nat) : WithBot Nat) := by
  apply toPoly_degree_le
  rw [List.length_map, sss_polynomial_coeffs_length]

theorem sharePoly_degree_lt (secret : List Nat) (threshold : Nat)
    (rand : Nat → Nat → Nat) (j : Nat) (n : Nat) (ht : 1 ≤ threshold)
    (hn : threshold ≤ n) :
    (sharePoly secret threshold rand j).degree < (n : WithBot Nat) := by
  apply lt_of_le_of_lt (sharePoly_degree_le secret threshold rand j ht)
  exact_mod_cast (by omega : threshold - 1 < n)

theorem sharePoly_eval (secret : List Nat) (threshold : Nat)
    (rand : Nat → Nat → Nat) (j : Nat) (x : Nat)
    (hs : secret.getD j 0 < 256) (hr : ∀ i, rand j i < 256) (hx : x < 256) :
    gb (sss_polynomial_evaluate
        (sss_polynomial_coeffs (rand j) (secret.getD j 0) (threshold - 1)) x) =
      (sharePoly secret threshold rand j).eval (gb x) :=
  gb_evaluate _ _ (sss_polynomial_coeffs_lt _ _ _ hs hr) hx

theorem sharePoly_eval_zero (secret : List Nat) (threshold : Nat)
    (rand : Nat → Nat → Nat) (j : Nat) :
    (sharePoly secret threshold rand j).eval 0 = gb (secret.getD j 0) := by
  rw [sharePoly, toPoly_eval_zero]
  rfl

/-- mpc_reconstruct on a batch of wrapped family-shaped shares at distinct
positions: all validations pass and the underlying combine recovers the
bytes whose images are the f j at zero. -/
theorem mpc_reconstruct_family (ctx : mpc_context_t) (v : Nat → Nat → Nat)
    (w : Nat → Nat) (f : Nat → Polynomial GF256) (t : Nat) (sel : List Nat)
    (hsne : sel ≠ [])
    (hKlen : ctx.threshold ≤ sel.length)
    (ht : t ≤ sel.length)
    (hnd : sel.Nodup)
    (hmem : ∀ p ∈ sel, p < ctx.num_parties)
    (hN : ctx.num_parties ≤ 255)
    (hdeg : ∀ j, j < ctx.value_size →
      (f j).degree < (sel.length : WithBot Nat))
    (hv : ∀ p ∈ sel, ∀ j, j < ctx.value_size → v p j < 256 ∧
      gb (v p j) = (f j).eval (gb (p + 1)))
    (hw : ∀ j, j < ctx.value_size → w j < 256 ∧ gb (w j) = (f j).eval 0) :
    mpc_reconstruct ctx (sel.map (fun p =>
      ({ share :=
           { index := p + 1
             threshold := t
             data := (List.range ctx.value_size).map (fun j => v p j)
             data_len := ctx.value_size }
         party_id := p + 1
         computation_id := ctx.computation_id } : mpc_share_t))) =
      .ok ((List.range ctx.value_size).map (fun j => w j)) := by
  unfold mpc_reconstruct
  rw [if_neg (by rw [List.length_map]; omega)]
  rw [if_neg (show ¬ ((sel.map _).any
      (fun m => decide (mpc_validate_share ctx m ≠ 0)) = true) from ?hval)]
  case hval =>
    rw [List.any_eq_true]
    rintro ⟨m, hm, hdec⟩
    rcases List.mem_map.mp hm with ⟨p, hp, rfl⟩
    rw [decide_eq_true_eq] at hdec
    apply hdec
    rw [mpc_validate_share_eq_zero_iff]
    refine ⟨?_, ?_, rfl, rfl⟩
    · show 1 ≤ p + 1
      omega
    · show p + 1 ≤ ctx.num_parties
      have := hmem p hp
      omega
  have hshares : (sel.map (fun p =>
      ({ share :=
           { index := p + 1
             threshold := t
             data := (List.range ctx.value_size).map (fun j => v p j)
             data_len := ctx.value_size }
         party_id := p + 1
         computation_id := ctx.computation_id } : mpc_share_t))).map
        (fun m => m.share) =
      sel.map (fun p =>
        ({ index := p + 1
           threshold := t
           data := (List.range ctx.value_size).map (fun j => v p j)
           data_len := ctx.value_size } : sss_share_t)) := by
    rw [List.map_map]
    rfl
  rw [hshares, sss_combine_shares_family v w f sel t ctx.value_size
    ctx.value_size hsne ht hnd
    (fun p hp => by have := hmem p hp; omega) (le_refl _) hdeg hv hw]

/-- Reconstructing any large enough selection of the shares produced by
mpc_create_shares returns the secret prefix. -/
theorem mpc_roundtrip (ctx : mpc_context_t) (secret : List Nat)
    (rand : Nat → Nat → Nat) (sel : List Nat)
    (hwf : mpc_context_wf ctx)
    (hsec : ∀ j, j < ctx.value_size → secret.getD j 0 < 256)
    (hrand : ∀ j i, rand j i < 256)
    (hKlen : ctx.threshold ≤ sel.length)
    (hnd : sel.Nodup)
    (hmem : ∀ p ∈ sel, p < ctx.num_parties) :
    mpc_reconstruct ctx (sel.map (fun p =>
      ({ share := sss_share_of secret ctx.value_size ctx.threshold rand p
         party_id := p + 1
         computation_id := ctx.computation_id } : mpc_share_t))) =
      .ok ((List.range ctx.value_size).map (fun j => secret.getD j 0)) := by
  obtain ⟨hN1, hN2, hK1, hK2, hL1, hL2⟩ := hwf
  have hsne : sel ≠ [] := by
    intro hc
    rw [hc] at hKlen
    simp at hKlen
    omega
  exact mpc_reconstruct_family ctx
    (fun p j => sss_polynomial_evaluate
      (sss_polynomial_coeffs (rand j) (secret.getD j 0) (ctx.threshold - 1))
      (p + 1))
    (fun j => secret.getD j 0)
    (sharePoly secret ctx.threshold rand)
    ctx.threshold sel hsne hKlen hKlen hnd hmem hN2
    (fun j hj => sharePoly_degree_lt secret ctx.threshold rand j sel.length
      (by omega) hKlen)
    (fun p hp j hj => ⟨sss_polynomial_evaluate_lt _ _
        (sss_polynomial_coeffs_lt _ _ _ (hsec j hj) (fun i => hrand j i)),
      sharePoly_eval secret ctx.threshold rand j (p + 1) (hsec j hj)
        (fun i => hrand j i) (by have := hmem p hp; omega)⟩)
    (fun j hj => ⟨hsec j hj, (sharePoly_eval_zero secret ctx.threshold rand j).symm⟩)

/-- mpc_secure_add on matching selections of two share families produced by
mpc_create_shares under the same context: validation passes and the output
shares carry the bytewise GF(256) sums. -/
theorem mpc_secure_add_of_create (ctx : mpc_context_t) (X Y : List Nat)
    (randX randY : Nat → Nat → Nat) (sel : List Nat)
    (hsne : sel ≠ [])
    (hmem : ∀ p ∈ sel, p < ctx.num_parties) :
    mpc_secure_add ctx
      (sel.map (fun p =>
        ({ share := sss_share_of X ctx.value_size ctx.threshold randX p
           party_id := p + 1
           computation_id := ctx.computation_id } : mpc_share_t)))
      (sel.map (fun p =>
        ({ share := sss_share_of Y ctx.value_size ctx.threshold randY p
           party_id := p + 1
           computation_id := ctx.computation_id } : mpc_share_t))) =
      .ok (sel.map (fun p =>
        ({ share :=
             { index := p + 1
               threshold := ctx.threshold
               data := (List.range ctx.value_size).map (fun j =>
                 gf256_add
                   ((sss_share_of X ctx.value_size ctx.threshold randX p).data.getD j 0)
                   ((sss_share_of Y ctx.value_size ctx.threshold randY p).data.getD j 0))
               data_len := ctx.value_size }
           party_id := p + 1
           computation_id := ctx.computation_id } : mpc_share_t))) := by
  unfold mpc_secure_add
  rw [if_neg (by
    rw [List.length_map]
    intro hc
    exact hsne (List.length_eq_zero.mp hc))]
  rw [List.zip_map']
  rw [if_neg (show ¬ ((sel.map _).any _ = true) from ?hval)]
  case hval =>
    rw [List.any_eq_true]
    rintro ⟨q, hq, hdec⟩
    rcases List.mem_map.mp hq with ⟨p, hp, rfl⟩
    rw [decide_eq_true_eq] at hdec
    have hvx : mpc_validate_share ctx
        ({ share := sss_share_of X ctx.value_size ctx.threshold randX p
           party_id := p + 1
           computation_id := ctx.computation_id } : mpc_share_t) = 0 := by
      rw [mpc_validate_share_eq_zero_iff]
      refine ⟨?_, ?_, rfl, rfl⟩
      · show 1 ≤ p + 1
        omega
      · show p + 1 ≤ ctx.num_parties
        have := hmem p hp
        omega
    have hvy : mpc_validate_share ctx
        ({ share := sss_share_of Y ctx.value_size ctx.threshold randY p
           party_id := p + 1
           computation_id := ctx.computation_id } : mpc_share_t) = 0 := by
      rw [mpc_validate_share_eq_zero_iff]
      refine ⟨?_, ?_, rfl, rfl⟩
      · show 1 ≤ p + 1
        omega
      · show p + 1 ≤ ctx.num_parties
        have := hmem p hp
        omega
    rcases hdec with h | h | h | h
    · exact h hvx
    · exact h hvy
    · exact h rfl
    · exact h rfl
  rw [List.map_map]
  rfl

/- ================= list reshaping helpers ================================ -/

theorem map_range_getD_self (l : List Nat) :
    (List.range l.length).map (fun j => l.getD j 0) = l := by
  apply List.ext_getElem
  · rw [List.length_map, List.length_range]
  · intro i h1 h2
    rw [List.getElem_map, List.getElem_range,
      getD_eq_getElem _ _ _ (by simpa using h2)]

theorem zipWith_eq_map_range (f : Nat → Nat → Nat) :
    ∀ (L : Nat) (X Y : List Nat), X.length = L → Y.length = L →
      List.zipWith f X Y =
        (List.range L).map (fun j => f (X.getD j 0) (Y.getD j 0)) := by
  intro L
  induction L with
  | zero =>
    intro X Y hX hY
    rw [List.length_eq_zero.mp hX, List.length_eq_zero.mp hY]
    rfl
  | succ L ih =>
    intro X Y hX hY
    rcases X with _ | ⟨x, Xt⟩
    · simp at hX
    rcases Y with _ | ⟨y, Yt⟩
    · simp at hY
    rw [List.range_succ_eq_map]
    show f x y :: List.zipWith f Xt Yt = _
    rw [List.map_cons, List.map_map]
    have htail : List.map ((fun j => f ((x :: Xt).getD j 0) ((y :: Yt).getD j 0)) ∘
        (fun i => i + 1)) (List.range L) =
        List.map (fun j => f (Xt.getD j 0) (Yt.getD j 0)) (List.range L) := by
      apply List.map_congr_left
      intro j _
      rfl
    rw [htail, ih Xt Yt (by simpa using hX) (by simpa using hY)]
    rfl

/- ======================= claims ========================================== -/

/-- C7: for every nonzero byte a, gf256_inv a equals the code's
square-and-multiply computation of a to the 254th power (gf256_pow a 254)
and gf256_mul a (gf256_inv a) = 1; gf256_inv 0 returns the sentinel 0. -/
theorem claim_c7 :
    (∀ a, 0 < a → a < 256 →
      gf256_inv a = gf256_pow a 254 ∧ gf256_mul a (gf256_inv a) = 1) ∧
    gf256_inv 0 = 0 := by
  constructor
  · intro a ha0 ha
    constructor
    · unfold gf256_inv gf256_pow
      rw [if_neg (show ¬ a = 0 by omega), if_neg (show ¬ (254 : Nat) = 0 by norm_num)]
    · have hne : (⟨a, ha⟩ : GF256) ≠ 0 := by
        intro hc
        have h2 : a = 0 := congrArg GF256.val hc
        omega
      have hfield := GF256.mul_inv_cancel_thm ⟨a, ha⟩ hne
      have hval := congrArg GF256.val hfield
      rwa [GF256.val_mul, GF256.val_inv, GF256.val_one] at hval
  · rfl

/-- Witness for C7 at a = 9. -/
theorem claim_c7_witness :
    gf256_inv 9 = gf256_pow 9 254 ∧ gf256_mul 9 (gf256_inv 9) = 1 :=
  claim_c7.1 9 (by norm_num) (by norm_num)

/-- C8: division is multiplication by the inverse with the b = 0 sentinel,
and exponentiation has the stated base cases, on the byte domain. -/
theorem claim_c8 :
    (∀ a b, a < 256 → b < 256 → b ≠ 0 →
      gf256_div a b = gf256_mul a (gf256_inv b)) ∧
    (∀ a, a < 256 → gf256_div a 0 = 0) ∧
    (∀ base, base < 256 → gf256_pow base 0 = 1) ∧
    (∀ e, e < 256 → 0 < e → gf256_pow 0 e = 0) := by
  refine ⟨?_, ?_, ?_, ?_⟩
  · intro a b _ _ hb
    unfold gf256_div
    rw [if_neg hb]
  · intro a _
    rfl
  · intro base _
    rfl
  · intro e _ he
    unfold gf256_pow
    rw [if_neg (by omega), if_pos rfl]

/-- Witness for C8 at a = 6, b = 3, base = 5, e = 7. -/
theorem claim_c8_witness :
    gf256_div 6 3 = gf256_mul 6 (gf256_inv 3) ∧ gf256_div 6 0 = 0 ∧
    gf256_pow 5 0 = 1 ∧ gf256_pow 0 7 = 0 :=
  ⟨claim_c8.1 6 3 (by norm_num) (by norm_num) (by norm_num),
   claim_c8.2.1 6 (by norm_num),
   claim_c8.2.2.1 5 (by norm_num),
   claim_c8.2.2.2 7 (by norm_num) (by norm_num)⟩

/-- C6: sss_validate_share rejects index 0, threshold below 2, zero length
and length above the 32-byte capacity; mpc_validate_share rejects a wrong
session tag or out-of-range party id, and accepts exactly the shares with
party id in [1, N], matching tag, and data_len equal to the context's
value_size. -/
theorem claim_c6 :
    (∀ s : sss_share_t,
      s.index = 0 ∨ s.threshold < 2 ∨ s.data_len = 0 ∨ s.data_len > 32 →
      sss_validate_share s ≠ SSS_OK) ∧
    (∀ (ctx : mpc_context_t) (m : mpc_share_t),
      m.computation_id ≠ ctx.computation_id ∨
        m.party_id < 1 ∨ m.party_id > ctx.num_parties →
      mpc_validate_share ctx m ≠ 0) ∧
    (∀ (ctx : mpc_context_t) (m : mpc_share_t),
      mpc_validate_share ctx m = 0 ↔
        (1 ≤ m.party_id ∧ m.party_id ≤ ctx.num_parties ∧
          m.computation_id = ctx.computation_id ∧
          m.share.data_len = ctx.value_size)) := by
  refine ⟨?_, ?_, mpc_validate_share_eq_zero_iff⟩
  · intro s hbad
    unfold sss_validate_share
    split_ifs with h1 h2 h3
    · intro hc
      exact absurd hc (by decide)
    · intro hc
      exact absurd hc (by decide)
    · intro hc
      exact absurd hc (by decide)
    · intro _
      simp [SSS_MIN_THRESHOLD] at h2
      simp [SSS_SHARE_DATA_SIZE] at h3
      omega
  · intro ctx m hbad
    rw [Ne, mpc_validate_share_eq_zero_iff]
    intro ⟨hp1, hp2, hc, _⟩
    rcases hbad with h | h | h
    · exact h hc
    · omega
    · omega

/-- Witness for C6: a share with index 0 is rejected, a tag mismatch is
rejected, and a conforming MPC share is accepted. -/
theorem claim_c6_witness :
    sss_validate_share ⟨0, 2, [1], 1⟩ ≠ SSS_OK ∧
    mpc_validate_share ⟨3, 2, 7, 1⟩ ⟨⟨1, 2, [5], 1⟩, 1, 8⟩ ≠ 0 ∧
    (mpc_validate_share ⟨3, 2, 7, 1⟩ ⟨⟨1, 2, [5], 1⟩, 1, 7⟩ = 0 ↔
      (1 ≤ 1 ∧ 1 ≤ 3 ∧ 7 = 7 ∧ 1 = 1)) :=
  ⟨claim_c6.1 ⟨0, 2, [1], 1⟩ (Or.inl rfl),
   claim_c6.2.1 ⟨3, 2, 7, 1⟩ ⟨⟨1, 2, [5], 1⟩, 1, 8⟩ (Or.inl (by decide)),
   claim_c6.2.2 ⟨3, 2, 7, 1⟩ ⟨⟨1, 2, [5], 1⟩, 1, 7⟩⟩

/-- C2 is a bug in the code: validate_share_params only rejects lengths
above SSS_MAX_SECRET_SIZE = 1024, so a 33-byte secret, although larger than
the 32-byte share data buffer, passes validation and sss_create_shares
reports success (the C code then writes 33 bytes into the 32-byte array).
This theorem evaluates the embedded code at the failing input. -/
theorem claim_c2_code_evaluation :
    validate_share_params 33 2 2 = SSS_OK ∧
    sss_create_shares (List.replicate 33 7) 33 2 2 (fun _ _ => 1) =
      .ok ((List.range 2).map
        (sss_share_of (List.replicate 33 7) 33 2 (fun _ _ => 1))) ∧
    SSS_SHARE_DATA_SIZE < 33 := by
  refine ⟨?_, ?_, ?_⟩
  · decide
  · exact sss_create_shares_eq _ _ _ _ _ (by norm_num) (by norm_num)
      (by norm_num) (by norm_num) (by norm_num)
  · decide

/-- Counterexample to C5 as stated: two shares with the same index make
sss_combine_shares fail with SSS_ERR_DUPLICATE_SHARE (-5), not with
SSS_ERR_INVALID_SHARES (-3) as the claim asserts. -/
theorem claim_c5_counterexample :
    sss_combine_shares
      [⟨1, 2, [5], 1⟩, ⟨1, 2, [9], 1⟩] 4 = .error SSS_ERR_DUPLICATE_SHARE ∧
    SSS_ERR_DUPLICATE_SHARE ≠ SSS_ERR_INVALID_SHARES := by
  constructor
  · rfl
  · decide

/-- C5 amended: combine failure semantics exactly as coded, with duplicate
indices reported as SSS_ERR_DUPLICATE_SHARE rather than InvalidShares; the
other four scenarios keep the statuses the claim names. -/
theorem claim_c5_amended :
    (∀ buf, sss_combine_shares [] buf = .error SSS_ERR_INVALID_SHARES) ∧
    (∀ shares buf, shares ≠ [] →
      shares.length < (shares.headD default).threshold →
      sss_combine_shares shares buf = .error SSS_ERR_INVALID_SHARES) ∧
    (∀ shares buf, shares ≠ [] →
      ¬ shares.length < (shares.headD default).threshold →
      (∃ s ∈ shares.drop 1,
        s.threshold ≠ (shares.headD default).threshold ∨
          s.data_len ≠ (shares.headD default).data_len) →
      sss_combine_shares shares buf = .error SSS_ERR_INVALID_SHARES) ∧
    (∀ shares buf, shares ≠ [] →
      ¬ shares.length < (shares.headD default).threshold →
      (∀ s ∈ shares.drop 1,
        s.threshold = (shares.headD default).threshold ∧
          s.data_len = (shares.headD default).data_len) →
      ¬ (shares.map (fun s => s.index)).Nodup →
      sss_combine_shares shares buf = .error SSS_ERR_DUPLICATE_SHARE) ∧
    (∀ shares buf, shares ≠ [] →
      ¬ shares.length < (shares.headD default).threshold →
      (∀ s ∈ shares.drop 1,
        s.threshold = (shares.headD default).threshold ∧
          s.data_len = (shares.headD default).data_len) →
      (shares.map (fun s => s.index)).Nodup →
      buf < (shares.headD default).data_len →
      sss_combine_shares shares buf = .error SSS_ERR_BUFFER_TOO_SMALL) := by
  refine ⟨?_, ?_, ?_, ?_, ?_⟩
  · intro buf
    rfl
  · intro shares buf hne hlt
    unfold sss_combine_shares
    rw [if_neg (fun hc => hne (List.length_eq_zero.mp hc)), if_pos hlt]
  · intro shares buf hne hlt hex
    unfold sss_combine_shares
    rw [if_neg (fun hc => hne (List.length_eq_zero.mp hc)), if_neg hlt,
      if_pos (by
        rw [List.any_eq_true]
        rcases hex with ⟨s, hs, hor⟩
        exact ⟨s, hs, decide_eq_true_eq.mpr hor⟩)]
  · intro shares buf hne hlt hall hdup
    unfold sss_combine_shares
    rw [if_neg (fun hc => hne (List.length_eq_zero.mp hc)), if_neg hlt,
      if_neg (by
        rw [List.any_eq_true]
        rintro ⟨s, hs, hdec⟩
        rw [decide_eq_true_eq] at hdec
        rcases hdec with h | h
        · exact h (hall s hs).1
        · exact h (hall s hs).2),
      if_pos hdup]
  · intro shares buf hne hlt hall hnd hbuf
    unfold sss_combine_shares
    rw [if_neg (fun hc => hne (List.length_eq_zero.mp hc)), if_neg hlt,
      if_neg (by
        rw [List.any_eq_true]
        rintro ⟨s, hs, hdec⟩
        rw [decide_eq_true_eq] at hdec
        rcases hdec with h | h
        · exact h (hall s hs).1
        · exact h (hall s hs).2),
      if_neg (not_not.mpr hnd), if_pos hbuf]

/-- Witness for C5 amended on concrete batches exercising each clause. -/
theorem claim_c5_amended_witness :
    sss_combine_shares [] 4 = .error SSS_ERR_INVALID_SHARES ∧
    sss_combine_shares [⟨1, 3, [5], 1⟩, ⟨2, 3, [9], 1⟩] 4 =
      .error SSS_ERR_INVALID_SHARES ∧
    sss_combine_shares [⟨1, 2, [5], 1⟩, ⟨2, 3, [9], 1⟩] 4 =
      .error SSS_ERR_INVALID_SHARES ∧
    sss_combine_shares [⟨1, 2, [5], 1⟩, ⟨1, 2, [9], 1⟩] 4 =
      .error SSS_ERR_DUPLICATE_SHARE ∧
    sss_combine_shares [⟨1, 2, [5, 6], 2⟩, ⟨2, 2, [9, 1], 2⟩] 1 =
      .error SSS_ERR_BUFFER_TOO_SMALL :=
  ⟨claim_c5_amended.1 4,
   claim_c5_amended.2.1 _ 4 (by decide) (by decide),
   claim_c5_amended.2.2.1 _ 4 (by decide) (by decide)
     ⟨⟨2, 3, [9], 1⟩, by decide, by decide⟩,
   claim_c5_amended.2.2.2.1 _ 4 (by decide) (by decide) (by decide) (by decide),
   claim_c5_amended.2.2.2.2 _ 1 (by decide) (by decide) (by decide) (by decide)
     (by decide)⟩

/-- C1: round trip of split and combine.  For any secret of length in
[1, 32], any threshold K in [2, N], any N in [2, 255] (implied by
2 <= K <= N <= 255), and any choice of the nonzero random coefficients,
combining any selection of at least K of the N shares produced by
sss_create_shares (distinct positions, any order) into a buffer of at least
L bytes returns exactly the secret, whose length is L. -/
theorem claim_c1 (secret : List Nat) (K N : Nat) (rand : Nat → Nat → Nat)
    (shares : List sss_share_t) (sel : List Nat) (buf : Nat)
    (hL1 : 1 ≤ secret.length) (hL2 : secret.length ≤ 32)
    (hbytes : ∀ b ∈ secret, b < 256)
    (hK : 2 ≤ K) (hKN : K ≤ N) (hN : N ≤ 255)
    (hrand : ∀ j i, 1 ≤ rand j i ∧ rand j i ≤ 255)
    (hsh : sss_create_shares secret secret.length K N rand = .ok shares)
    (hnd : sel.Nodup) (hlen : K ≤ sel.length) (hmem : ∀ p ∈ sel, p < N)
    (hbuf : secret.length ≤ buf) :
    sss_combine_shares (sel.map (fun p => shares.getD p default)) buf =
      .ok secret := by
  rw [sss_create_shares_eq secret secret.length K N rand hL1 (by omega) hK hKN hN]
    at hsh
  have hshares : shares =
      (List.range N).map (sss_share_of secret secret.length K rand) :=
    (Except.ok.inj hsh).symm
  have hselmap : sel.map (fun p => shares.getD p default) =
      sel.map (sss_share_of secret secret.length K rand) := by
    apply List.map_congr_left
    intro p hp
    rw [hshares, getD_map_range _ (hmem p hp)]
  rw [hselmap, sss_roundtrip secret secret.length K N rand sel buf hL1 (by omega)
    hK hKN hN
    (fun j hj => hbytes _ (by
      rw [getD_eq_getElem _ _ _ hj]
      exact List.getElem_mem hj))
    (fun j i => (hrand j i).2.trans_lt (by norm_num))
    hnd hlen hmem hbuf, map_range_getD_self]

/-- Witness for C1: secret [0x42, 0x07], K = 2, N = 3, shares 0 and 2. -/
theorem claim_c1_witness :
    sss_combine_shares
      ((([0, 2] : List Nat)).map (fun p =>
        (((List.range 3).map
          (sss_share_of [0x42, 0x07] 2 2 (fun _ _ => 1))).getD p default))) 2 =
      .ok [0x42, 0x07] :=
  claim_c1 [0x42, 0x07] 2 3 (fun _ _ => 1)
    ((List.range 3).map (sss_share_of [0x42, 0x07] 2 2 (fun _ _ => 1)))
    [0, 2] 2 (by norm_num) (by norm_num) (by decide) (by norm_num) (by norm_num)
    (by norm_num) (fun j i => ⟨by norm_num, by norm_num⟩)
    (sss_create_shares_eq _ _ _ _ _ (by norm_num) (by norm_num) (by norm_num)
      (by norm_num) (by norm_num))
    (by decide) (by decide) (by decide) (by norm_num)

/-- C3: additive homomorphism.  For secrets X and Y of equal length shared
under the same context (same N, K, session tag), and any selection of at
least K matching party positions, mpc_secure_add succeeds and
reconstructing the resulting shares yields the bytewise XOR of X and Y. -/
theorem claim_c3 (ctx : mpc_context_t) (X Y : List Nat)
    (randX randY : Nat → Nat → Nat) (mX mY : List mpc_share_t)
    (sel : List Nat)
    (hwf : mpc_context_wf ctx) (hL32 : ctx.value_size ≤ 32)
    (hXlen : X.length = ctx.value_size) (hYlen : Y.length = ctx.value_size)
    (hXb : ∀ b ∈ X, b < 256) (hYb : ∀ b ∈ Y, b < 256)
    (hrx : ∀ j i, 1 ≤ randX j i ∧ randX j i ≤ 255)
    (hry : ∀ j i, 1 ≤ randY j i ∧ randY j i ≤ 255)
    (hmX : mpc_create_shares ctx X randX = .ok mX)
    (hmY : mpc_create_shares ctx Y randY = .ok mY)
    (hnd : sel.Nodup) (hlen : ctx.threshold ≤ sel.length)
    (hmem : ∀ p ∈ sel, p < ctx.num_parties) :
    ∃ zs, mpc_secure_add ctx (sel.map (fun p => mX.getD p default))
        (sel.map (fun p => mY.getD p default)) = .ok zs ∧
      mpc_reconstruct ctx zs = .ok (List.zipWith gf256_add X Y) := by
  obtain ⟨hN1, hN2, hK1, hK2, hL1, hL2⟩ := hwf
  have hXb2 : ∀ j, j < ctx.value_size → X.getD j 0 < 256 := by
    intro j hj
    rw [getD_eq_getElem _ _ _ (by omega)]
    exact hXb _ (List.getElem_mem (by omega))
  have hYb2 : ∀ j, j < ctx.value_size → Y.getD j 0 < 256 := by
    intro j hj
    rw [getD_eq_getElem _ _ _ (by omega)]
    exact hYb _ (List.getElem_mem (by omega))
  have hsne : sel ≠ [] := by
    intro hc
    rw [hc] at hlen
    simp at hlen
    omega
  rw [mpc_create_shares_eq ctx X randX ⟨hN1, hN2, hK1, hK2, hL1, hL2⟩] at hmX
  rw [mpc_create_shares_eq ctx Y randY ⟨hN1, hN2, hK1, hK2, hL1, hL2⟩] at hmY
  have hmX2 := (Except.ok.inj hmX).symm
  have hmY2 := (Except.ok.inj hmY).symm
  have hselX : sel.map (fun p => mX.getD p default) =
      sel.map (fun p =>
        ({ share := sss_share_of X ctx.value_size ctx.threshold randX p
           party_id := p + 1
           computation_id := ctx.computation_id } : mpc_share_t)) := by
    apply List.map_congr_left
    intro p hp
    rw [hmX2, getD_map_range _ (hmem p hp)]
  have hselY : sel.map (fun p => mY.getD p default) =
      sel.map (fun p =>
        ({ share := sss_share_of Y ctx.value_size ctx.threshold randY p
           party_id := p + 1
           computation_id := ctx.computation_id } : mpc_share_t)) := by
    apply List.map_congr_left
    intro p hp
    rw [hmY2, getD_map_range _ (hmem p hp)]
  rw [hselX, hselY, mpc_secure_add_of_create ctx X Y randX randY sel hsne hmem]
  refine ⟨_, rfl, ?_⟩
  have hrecon := mpc_reconstruct_family ctx
    (fun p j =>
      gf256_add
        ((sss_share_of X ctx.value_size ctx.threshold randX p).data.getD j 0)
        ((sss_share_of Y ctx.value_size ctx.threshold randY p).data.getD j 0))
    (fun j => gf256_add (X.getD j 0) (Y.getD j 0))
    (fun j => sharePoly X ctx.threshold randX j + sharePoly Y ctx.threshold randY j)
    ctx.threshold sel hsne hlen hlen hnd hmem hN2
    (fun j hj => by
      apply lt_of_le_of_lt (Polynomial.degree_add_le _ _)
      apply max_lt
      · exact sharePoly_degree_lt X ctx.threshold randX j sel.length (by omega) hlen
      · exact sharePoly_degree_lt Y ctx.threshold randY j sel.length (by omega) hlen)
    (fun p hp j hj => by
      beta_reduce
      have hdX : (sss_share_of X ctx.value_size ctx.threshold randX p).data.getD j 0 =
          sss_polynomial_evaluate
            (sss_polynomial_coeffs (randX j) (X.getD j 0) (ctx.threshold - 1))
            (p + 1) := by
        show ((List.range ctx.value_size).map _).getD j 0 = _
        rw [getD_map_range _ hj]
      have hdY : (sss_share_of Y ctx.value_size ctx.threshold randY p).data.getD j 0 =
          sss_polynomial_evaluate
            (sss_polynomial_coeffs (randY j) (Y.getD j 0) (ctx.threshold - 1))
            (p + 1) := by
        show ((List.range ctx.value_size).map _).getD j 0 = _
        rw [getD_map_range _ hj]
      have hltX : sss_polynomial_evaluate
          (sss_polynomial_coeffs (randX j) (X.getD j 0) (ctx.threshold - 1))
          (p + 1) < 256 :=
        sss_polynomial_evaluate_lt _ _ (sss_polynomial_coeffs_lt _ _ _ (hXb2 j hj)
          (fun i => (hrx j i).2.trans_lt (by norm_num)))
      have hltY : sss_polynomial_evaluate
          (sss_polynomial_coeffs (randY j) (Y.getD j 0) (ctx.threshold - 1))
          (p + 1) < 256 :=
        sss_polynomial_evaluate_lt _ _ (sss_polynomial_coeffs_lt _ _ _ (hYb2 j hj)
          (fun i => (hry j i).2.trans_lt (by norm_num)))
      constructor
      · rw [hdX, hdY]
        exact Nat.xor_lt_two_pow (n := 8) hltX hltY
      · rw [hdX, hdY, gb_add hltX hltY, Polynomial.eval_add,
          sharePoly_eval X ctx.threshold randX j (p + 1) (hXb2 j hj)
            (fun i => (hrx j i).2.trans_lt (by norm_num)) (by have := hmem p hp; omega),
          sharePoly_eval Y ctx.threshold randY j (p + 1) (hYb2 j hj)
            (fun i => (hry j i).2.trans_lt (by norm_num)) (by have := hmem p hp; omega)])
    (fun j hj => by
      beta_reduce
      constructor
      · exact Nat.xor_lt_two_pow (n := 8) (hXb2 j hj) (hYb2 j hj)
      · rw [gb_add (hXb2 j hj) (hYb2 j hj), Polynomial.eval_add,
          sharePoly_eval_zero, sharePoly_eval_zero])
  rw [hrecon, zipWith_eq_map_range gf256_add ctx.value_size X Y hXlen hYlen]

/-- Witness for C3: X = [50], Y = [30], N = 3, K = 2, parties 1 and 3. -/
theorem claim_c3_witness :
    ∃ zs, mpc_secure_add ⟨3, 2, 7, 1⟩
        (([0, 2] : List Nat).map (fun p =>
          (((List.range 3).map (fun i =>
            ({ share := sss_share_of [50] 1 2 (fun _ _ => 1) i
               party_id := i + 1
               computation_id := 7 } : mpc_share_t))).getD p default)))
        (([0, 2] : List Nat).map (fun p =>
          (((List.range 3).map (fun i =>
            ({ share := sss_share_of [30] 1 2 (fun _ _ => 2) i
               party_id := i + 1
               computation_id := 7 } : mpc_share_t))).getD p default))) = .ok zs ∧
      mpc_reconstruct ⟨3, 2, 7, 1⟩ zs = .ok (List.zipWith gf256_add [50] [30]) :=
  claim_c3 ⟨3, 2, 7, 1⟩ [50] [30] (fun _ _ => 1) (fun _ _ => 2) _ _ [0, 2]
    (by norm_num [mpc_context_wf, SSS_MAX_SECRET_SIZE]) (by norm_num)
    (by norm_num) (by norm_num) (by decide) (by decide)
    (fun j i => ⟨by norm_num, by norm_num⟩) (fun j i => ⟨by norm_num, by norm_num⟩)
    (mpc_create_shares_eq ⟨3, 2, 7, 1⟩ [50] (fun _ _ => 1)
      (by norm_num [mpc_context_wf, SSS_MAX_SECRET_SIZE]))
    (mpc_create_shares_eq ⟨3, 2, 7, 1⟩ [30] (fun _ _ => 2)
      (by norm_num [mpc_context_wf, SSS_MAX_SECRET_SIZE]))
    (by decide) (by decide) (by decide)

/-- C9: on success, mpc_secure_mul writes exactly num_parties output shares,
with party ids 1..N, the context's session tag, index equal to the party
id, threshold ctx.threshold and length ctx.value_size — regardless of how
many input shares it was called with. -/
theorem claim_c9 (ctx : mpc_context_t) (xs ys out : List mpc_share_t)
    (rand : Nat → Nat → Nat)
    (h : mpc_secure_mul ctx xs ys rand = .ok out) :
    out.length = ctx.num_parties ∧
    ∀ i, i < ctx.num_parties →
      (out.getD i default).party_id = i + 1 ∧
      (out.getD i default).computation_id = ctx.computation_id ∧
      (out.getD i default).share.index = i + 1 ∧
      (out.getD i default).share.threshold = ctx.threshold ∧
      (out.getD i default).share.data_len = ctx.value_size ∧
      (out.getD i default).share.data.length = ctx.value_size := by
  unfold mpc_secure_mul at h
  split at h
  · simp at h
  split at h
  · simp at h
  dsimp only [] at h
  split at h
  · simp at h
  rename_i product hrec
  unfold mpc_create_shares at h
  split at h
  · simp at h
  rename_i sss_shares hcreate
  have hout : out = (List.range ctx.num_parties).map (fun i =>
      ({ share := sss_shares.getD i default
         party_id := i + 1
         computation_id := ctx.computation_id } : mpc_share_t)) :=
    (Except.ok.inj h).symm
  unfold sss_create_shares at hcreate
  dsimp only [] at hcreate
  split at hcreate
  · simp at hcreate
  split at hcreate
  · simp at hcreate
  have hsss : sss_shares = (List.range ctx.num_parties).map
      (sss_share_of product ctx.value_size ctx.threshold rand) :=
    (Except.ok.inj hcreate).symm
  constructor
  · rw [hout, List.length_map, List.length_range]
  · intro i hi
    rw [hout, getD_map_range _ hi, hsss, getD_map_range _ hi]
    refine ⟨rfl, rfl, rfl, rfl, rfl, ?_⟩
    show ((List.range ctx.value_size).map _).length = _
    rw [List.length_map, List.length_range]

/-- Concrete context for exercising mpc_secure_mul: N = 3, K = 2, tag 7,
one-byte values. -/
def c9ctx : mpc_context_t := ⟨3, 2, 7, 1⟩

/-- Shares of the one-byte secret [5] under c9ctx. -/
def c9xs : List mpc_share_t :=
  (mpc_create_shares c9ctx [5] (fun _ _ => 1)).toOption.getD []

/-- Shares of the one-byte secret [6] under c9ctx. -/
def c9ys : List mpc_share_t :=
  (mpc_create_shares c9ctx [6] (fun _ _ => 2)).toOption.getD []

/-- The output of a successful mpc_secure_mul run on those shares. -/
def c9out : List mpc_share_t :=
  (mpc_secure_mul c9ctx c9xs c9ys (fun _ _ => 3)).toOption.getD []

/-- Witness for C9 on the concrete run above. -/
theorem claim_c9_witness :
    c9out.length = c9ctx.num_parties ∧
    ∀ i, i < c9ctx.num_parties →
      (c9out.getD i default).party_id = i + 1 ∧
      (c9out.getD i default).computation_id = c9ctx.computation_id ∧
      (c9out.getD i default).share.index = i + 1 ∧
      (c9out.getD i default).share.threshold = c9ctx.threshold ∧
      (c9out.getD i default).share.data_len = c9ctx.value_size ∧
      (c9out.getD i default).share.data.length = c9ctx.value_size :=
  claim_c9 c9ctx c9xs c9ys c9out (fun _ _ => 3) (by rfl)

/-- A successful mpc_secure_add has validated every paired input share
against the context, and its output pairs the inputs positionally. -/
theorem mpc_secure_add_ok_valid (ctx : mpc_context_t)
    (xs ys zs : List mpc_share_t)
    (h : mpc_secure_add ctx xs ys = .ok zs) :
    (∀ pr ∈ xs.zip ys, mpc_validate_share ctx pr.1 = 0 ∧
      mpc_validate_share ctx pr.2 = 0) ∧
    zs.length = min xs.length ys.length := by
  unfold mpc_secure_add at h
  split at h
  · simp at h
  split at h
  · simp at h
  rename_i hlen hany
  constructor
  · intro pr hpr
    rw [List.any_eq_true] at hany
    push_neg at hany
    have hp := hany pr hpr
    simp only [ne_eq, decide_eq_true_eq] at hp
    push_neg at hp
    exact ⟨hp.1, hp.2.1⟩
  · have hz := (Except.ok.inj h).symm
    rw [hz, List.length_map, List.length_zip]

/-- A successful mpc_secure_sum_loop run has validated, via
mpc_secure_add, the first num_shares entries of every remaining set and,
when at least one set remains, of the running accumulator. -/
theorem mpc_secure_sum_loop_valid (ctx : mpc_context_t) (n : Nat) :
    ∀ (sets : List (List mpc_share_t)) (acc res : List mpc_share_t),
      acc.length = n → mpc_secure_sum_loop ctx n acc sets = .ok res →
      (∀ set ∈ sets, ∀ i, i < n →
        mpc_validate_share ctx (set.getD i default) = 0) ∧
      (sets ≠ [] → ∀ i, i < n →
        mpc_validate_share ctx (acc.getD i default) = 0) := by
  intro sets
  induction sets with
  | nil =>
    intro acc res _ _
    exact ⟨fun set hset => absurd hset (List.not_mem_nil set), fun hc => absurd rfl hc⟩
  | cons s rest ih =>
    intro acc res hacc h
    unfold mpc_secure_sum_loop at h
    split at h
    · simp at h
    rename_i temp hadd
    obtain ⟨hpairs, hlen⟩ := mpc_secure_add_ok_valid ctx acc
      ((List.range n).map (fun i => s.getD i default)) temp hadd
    have htemplen : temp.length = n := by
      rw [hlen, hacc, List.length_map, List.length_range]
      omega
    have hrest := ih temp res htemplen h
    have hpair_at : ∀ i, i < n →
        (acc.getD i default, s.getD i default) ∈
          acc.zip ((List.range n).map (fun i => s.getD i default)) := by
      intro i hi
      apply List.getElem?_mem (n := i)
      rw [List.getElem?_zip_eq_some]
      constructor
      · rw [List.getElem?_eq_getElem (by omega)]
        rw [getD_eq_getElem _ _ _ (by omega)]
      · rw [List.getElem?_eq_getElem
          (by rw [List.length_map, List.length_range]; omega)]
        rw [List.getElem_map, List.getElem_range]
    refine ⟨?_, ?_⟩
    · intro set hset i hi
      rcases List.mem_cons.mp hset with rfl | hset2
      · exact (hpairs _ (hpair_at i hi)).2
      · exact hrest.1 set hset2 i hi
    · intro _ i hi
      exact (hpairs _ (hpair_at i hi)).1

/-- C10: mpc_secure_sum with a single value set succeeds and copies the
first num_shares entries of that set verbatim — no share is validated on
this path — whereas with at least two value sets every entry (up to
num_shares) of every set in a successful run has passed
mpc_validate_share via the secure_add fold. -/
theorem claim_c10 (ctx : mpc_context_t) (n : Nat) (hn : n ≠ 0) :
    (∀ set0 : List mpc_share_t,
      mpc_secure_sum ctx [set0] n =
        .ok ((List.range n).map (fun i => set0.getD i default))) ∧
    (∀ (share_sets : List (List mpc_share_t)) (res : List mpc_share_t),
      2 ≤ share_sets.length →
      mpc_secure_sum ctx share_sets n = .ok res →
      ∀ set ∈ share_sets, ∀ i, i < n →
        mpc_validate_share ctx (set.getD i default) = 0) := by
  constructor
  · intro set0
    unfold mpc_secure_sum
    rw [if_neg (by push_neg; exact ⟨by simp, hn⟩)]
    rfl
  · intro share_sets res h2 h
    unfold mpc_secure_sum at h
    rw [if_neg (by push_neg; exact ⟨by omega, hn⟩)] at h
    have hacc : ((List.range n).map
        (fun i => (share_sets.headD []).getD i default)).length = n := by
      rw [List.length_map, List.length_range]
    obtain ⟨hrest, hhead⟩ :=
      mpc_secure_sum_loop_valid ctx n (share_sets.drop 1) _ res hacc h
    cases share_sets with
    | nil => simp at h2
    | cons s0 rest =>
      have hrestne : rest ≠ [] := by
        intro hc
        rw [hc] at h2
        simp at h2
      intro set hset i hi
      rcases List.mem_cons.mp hset with rfl | hset2
      · have := hhead (by simpa using hrestne) i hi
        rwa [getD_map_range _ hi] at this
      · exact hrest set (by simpa using hset2) i hi

/-- Witness for C10 at a concrete context and num_shares = 2. -/
theorem claim_c10_witness :
    (2 : Nat) ≠ 0 ∧
    ((∀ set0 : List mpc_share_t,
       mpc_secure_sum ⟨3, 2, 7, 1⟩ [set0] 2 =
         .ok ((List.range 2).map (fun i => set0.getD i default))) ∧
     (∀ (share_sets : List (List mpc_share_t)) (res : List mpc_share_t),
       2 ≤ share_sets.length →
       mpc_secure_sum ⟨3, 2, 7, 1⟩ share_sets 2 = .ok res →
       ∀ set ∈ share_sets, ∀ i, i < 2 →
         mpc_validate_share ⟨3, 2, 7, 1⟩ (set.getD i default) = 0)) :=
  ⟨by decide, claim_c10 ⟨3, 2, 7, 1⟩ 2 (by decide)⟩

/-- mpc_secure_mul on matching selections of two share families produced by
mpc_create_shares under one context, taken at 2K-1 or more distinct
parties: every guard passes, the intermediate pointwise-product shares
reconstruct to the bytewise GF(256) product of the secrets, and the call
reduces to resharing that product with the fresh randomness. -/
theorem mpc_secure_mul_of_create (ctx : mpc_context_t) (X Y : List Nat)
    (randX randY randM : Nat → Nat → Nat) (sel : List Nat)
    (hN2 : ctx.num_parties ≤ 255)
    (hK1 : 2 ≤ ctx.threshold)
    (hmem : ∀ p ∈ sel, p < ctx.num_parties)
    (hlen : 2 * ctx.threshold - 1 ≤ sel.length)
    (hnd : sel.Nodup)
    (hXb2 : ∀ j, j < ctx.value_size → X.getD j 0 < 256)
    (hYb2 : ∀ j, j < ctx.value_size → Y.getD j 0 < 256)
    (hrx : ∀ j i, randX j i < 256)
    (hry : ∀ j i, randY j i < 256) :
    mpc_secure_mul ctx
      (sel.map (fun p =>
        ({ share := sss_share_of X ctx.value_size ctx.threshold randX p
           party_id := p + 1
           computation_id := ctx.computation_id } : mpc_share_t)))
      (sel.map (fun p =>
        ({ share := sss_share_of Y ctx.value_size ctx.threshold randY p
           party_id := p + 1
           computation_id := ctx.computation_id } : mpc_share_t))) randM =
      mpc_create_shares ctx
        ((List.range ctx.value_size).map (fun j =>
          gf256_mul (X.getD j 0) (Y.getD j 0))) randM := by
  have hsne : sel ≠ [] := by
    intro hc
    rw [hc] at hlen
    simp at hlen
    omega
  have hdl : (((sel.map (fun p =>
      ({ share := sss_share_of X ctx.value_size ctx.threshold randX p
         party_id := p + 1
         computation_id := ctx.computation_id } : mpc_share_t)))).headD
        default).share.data_len = ctx.value_size := by
    rcases sel with _ | ⟨p0, sel'⟩
    · exact absurd rfl hsne
    · rfl
  have hrecon := mpc_reconstruct_family ctx
    (fun p j => gf256_mul
      ((sss_share_of X ctx.value_size ctx.threshold randX p).data.getD j 0)
      ((sss_share_of Y ctx.value_size ctx.threshold randY p).data.getD j 0))
    (fun j => gf256_mul (X.getD j 0) (Y.getD j 0))
    (fun j => sharePoly X ctx.threshold randX j * sharePoly Y ctx.threshold randY j)
    ctx.threshold sel hsne (by omega) (by omega) hnd hmem hN2
    (fun j hj => by
      apply lt_of_le_of_lt (Polynomial.degree_mul_le _ _)
      have h1 := sharePoly_degree_le X ctx.threshold randX j (by omega)
      have h2 := sharePoly_degree_le Y ctx.threshold randY j (by omega)
      apply lt_of_le_of_lt (add_le_add h1 h2)
      have hc : (ctx.threshold - 1) + (ctx.threshold - 1) < sel.length := by omega
      calc ((ctx.threshold - 1 : Nat) : WithBot Nat) + ((ctx.threshold - 1 : Nat) : WithBot Nat)
          = (((ctx.threshold - 1) + (ctx.threshold - 1) : Nat) : WithBot Nat) :=
            (Nat.cast_add _ _).symm
        _ < ((sel.length : Nat) : WithBot Nat) := by exact_mod_cast hc)
    (fun p hp j hj => by
      beta_reduce
      have hdX : (sss_share_of X ctx.value_size ctx.threshold randX p).data.getD j 0 =
          sss_polynomial_evaluate
            (sss_polynomial_coeffs (randX j) (X.getD j 0) (ctx.threshold - 1))
            (p + 1) := by
        show ((List.range ctx.value_size).map _).getD j 0 = _
        rw [getD_map_range _ hj]
      have hdY : (sss_share_of Y ctx.value_size ctx.threshold randY p).data.getD j 0 =
          sss_polynomial_evaluate
            (sss_polynomial_coeffs (randY j) (Y.getD j 0) (ctx.threshold - 1))
            (p + 1) := by
        show ((List.range ctx.value_size).map _).getD j 0 = _
        rw [getD_map_range _ hj]
      have hltX : sss_polynomial_evaluate
          (sss_polynomial_coeffs (randX j) (X.getD j 0) (ctx.threshold - 1))
          (p + 1) < 256 :=
        sss_polynomial_evaluate_lt _ _
          (sss_polynomial_coeffs_lt _ _ _ (hXb2 j hj) (fun i => hrx j i))
      have hltY : sss_polynomial_evaluate
          (sss_polynomial_coeffs (randY j) (Y.getD j 0) (ctx.threshold - 1))
          (p + 1) < 256 :=
        sss_polynomial_evaluate_lt _ _
          (sss_polynomial_coeffs_lt _ _ _ (hYb2 j hj) (fun i => hry j i))
      constructor
      · rw [hdX, hdY]
        exact gf256_mul_lt _ _ hltX
      · rw [hdX, hdY, gb_mul hltX hltY, Polynomial.eval_mul,
          sharePoly_eval X ctx.threshold randX j (p + 1) (hXb2 j hj)
            (fun i => hrx j i) (by have := hmem p hp; omega),
          sharePoly_eval Y ctx.threshold randY j (p + 1) (hYb2 j hj)
            (fun i => hry j i) (by have := hmem p hp; omega)])
    (fun j hj => by
      beta_reduce
      constructor
      · exact gf256_mul_lt _ _ (hXb2 j hj)
      · rw [gb_mul (hXb2 j hj) (hYb2 j hj), Polynomial.eval_mul,
          sharePoly_eval_zero, sharePoly_eval_zero])
  unfold mpc_secure_mul
  rw [if_neg (by
    rw [List.length_map]
    push_neg
    refine ⟨fun hc => hsne (List.length_eq_zero.mp hc), ?_⟩
    omega)]
  rw [List.zip_map']
  rw [if_neg (show ¬ ((sel.map _).any _ = true) from ?hval)]
  case hval =>
    rw [List.any_eq_true]
    rintro ⟨q, hq, hdec⟩
    rcases List.mem_map.mp hq with ⟨p, hp, rfl⟩
    rw [decide_eq_true_eq] at hdec
    have hvx : mpc_validate_share ctx
        ({ share := sss_share_of X ctx.value_size ctx.threshold randX p
           party_id := p + 1
           computation_id := ctx.computation_id } : mpc_share_t) = 0 := by
      rw [mpc_validate_share_eq_zero_iff]
      refine ⟨?_, ?_, rfl, rfl⟩
      · show 1 ≤ p + 1
        omega
      · show p + 1 ≤ ctx.num_parties
        have := hmem p hp
        omega
    have hvy : mpc_validate_share ctx
        ({ share := sss_share_of Y ctx.value_size ctx.threshold randY p
           party_id := p + 1
           computation_id := ctx.computation_id } : mpc_share_t) = 0 := by
      rw [mpc_validate_share_eq_zero_iff]
      refine ⟨?_, ?_, rfl, rfl⟩
      · show 1 ≤ p + 1
        omega
      · show p + 1 ≤ ctx.num_parties
        have := hmem p hp
        omega
    rcases hdec with h | h | h | h
    · exact h hvx
    · exact h hvy
    · exact h rfl
    · exact h rfl
  dsimp only []
  simp only [hdl]
  rw [List.map_map]
  exact congrArg (fun r : Except Int (List Nat) =>
    match r with
    | .error _ => (.error (-1) : Except Int (List mpc_share_t))
    | .ok product => mpc_create_shares ctx product randM) hrecon

/-- C4: multiplicative correctness of a single secure multiplication.  For
secrets X and Y shared under one context with threshold K = ctx.threshold,
when mpc_secure_mul is given n >= 2K-1 valid matching share pairs (the
selections of the two families at the same 2K-1 or more distinct parties),
it succeeds, and reconstructing from any K or more of its output shares
yields the bytewise GF(256) product of X and Y, for every choice of the
resharing randomness randM. -/
theorem claim_c4 (ctx : mpc_context_t) (X Y : List Nat)
    (randX randY randM : Nat → Nat → Nat) (mX mY : List mpc_share_t)
    (sel sel2 : List Nat)
    (hwf : mpc_context_wf ctx)
    (hXlen : X.length = ctx.value_size) (hYlen : Y.length = ctx.value_size)
    (hXb : ∀ b ∈ X, b < 256) (hYb : ∀ b ∈ Y, b < 256)
    (hrx : ∀ j i, 1 ≤ randX j i ∧ randX j i ≤ 255)
    (hry : ∀ j i, 1 ≤ randY j i ∧ randY j i ≤ 255)
    (hrm : ∀ j i, 1 ≤ randM j i ∧ randM j i ≤ 255)
    (hmX : mpc_create_shares ctx X randX = .ok mX)
    (hmY : mpc_create_shares ctx Y randY = .ok mY)
    (hnd : sel.Nodup) (hlen : 2 * ctx.threshold - 1 ≤ sel.length)
    (hmem : ∀ p ∈ sel, p < ctx.num_parties)
    (hnd2 : sel2.Nodup) (hlen2 : ctx.threshold ≤ sel2.length)
    (hmem2 : ∀ p ∈ sel2, p < ctx.num_parties) :
    ∃ zs, mpc_secure_mul ctx (sel.map (fun p => mX.getD p default))
        (sel.map (fun p => mY.getD p default)) randM = .ok zs ∧
      mpc_reconstruct ctx (sel2.map (fun p => zs.getD p default)) =
        .ok (List.zipWith gf256_mul X Y) := by
  obtain ⟨hN1, hN2, hK1, hK2, hL1, hL2⟩ := hwf
  have hXb2 : ∀ j, j < ctx.value_size → X.getD j 0 < 256 := by
    intro j hj
    rw [getD_eq_getElem _ _ _ (by omega)]
    exact hXb _ (List.getElem_mem (by omega))
  have hYb2 : ∀ j, j < ctx.value_size → Y.getD j 0 < 256 := by
    intro j hj
    rw [getD_eq_getElem _ _ _ (by omega)]
    exact hYb _ (List.getElem_mem (by omega))
  rw [mpc_create_shares_eq ctx X randX ⟨hN1, hN2, hK1, hK2, hL1, hL2⟩] at hmX
  rw [mpc_create_shares_eq ctx Y randY ⟨hN1, hN2, hK1, hK2, hL1, hL2⟩] at hmY
  have hmX2 := (Except.ok.inj hmX).symm
  have hmY2 := (Except.ok.inj hmY).symm
  have hselX : sel.map (fun p => mX.getD p default) =
      sel.map (fun p =>
        ({ share := sss_share_of X ctx.value_size ctx.threshold randX p
           party_id := p + 1
           computation_id := ctx.computation_id } : mpc_share_t)) := by
    apply List.map_congr_left
    intro p hp
    rw [hmX2, getD_map_range _ (hmem p hp)]
  have hselY : sel.map (fun p => mY.getD p default) =
      sel.map (fun p =>
        ({ share := sss_share_of Y ctx.value_size ctx.threshold randY p
           party_id := p + 1
           computation_id := ctx.computation_id } : mpc_share_t)) := by
    apply List.map_congr_left
    intro p hp
    rw [hmY2, getD_map_range _ (hmem p hp)]
  rw [hselX, hselY,
    mpc_secure_mul_of_create ctx X Y randX randY randM sel hN2 hK1 hmem hlen hnd
      hXb2 hYb2 (fun j i => (hrx j i).2.trans_lt (by norm_num))
      (fun j i => (hry j i).2.trans_lt (by norm_num)),
    mpc_create_shares_eq ctx
      ((List.range ctx.value_size).map (fun j =>
        gf256_mul (X.getD j 0) (Y.getD j 0))) randM
      ⟨hN1, hN2, hK1, hK2, hL1, hL2⟩]
  refine ⟨_, rfl, ?_⟩
  have hselZ : sel2.map (fun p =>
      (((List.range ctx.num_parties).map (fun i =>
        ({ share := sss_share_of
             ((List.range ctx.value_size).map (fun j =>
               gf256_mul (X.getD j 0) (Y.getD j 0)))
             ctx.value_size ctx.threshold randM i
           party_id := i + 1
           computation_id := ctx.computation_id } : mpc_share_t))).getD p default)) =
      sel2.map (fun p =>
        ({ share := sss_share_of
             ((List.range ctx.value_size).map (fun j =>
               gf256_mul (X.getD j 0) (Y.getD j 0)))
             ctx.value_size ctx.threshold randM p
           party_id := p + 1
           computation_id := ctx.computation_id } : mpc_share_t)) := by
    apply List.map_congr_left
    intro p hp
    rw [getD_map_range _ (hmem2 p hp)]
  have hsec : ∀ j, j < ctx.value_size →
      ((List.range ctx.value_size).map (fun j =>
        gf256_mul (X.getD j 0) (Y.getD j 0))).getD j 0 < 256 := by
    intro j hj
    rw [getD_map_range _ hj]
    exact gf256_mul_lt _ _ (hXb2 j hj)
  rw [hselZ,
    mpc_roundtrip ctx
      ((List.range ctx.value_size).map (fun j =>
        gf256_mul (X.getD j 0) (Y.getD j 0))) randM sel2
      ⟨hN1, hN2, hK1, hK2, hL1, hL2⟩ hsec
      (fun j i => (hrm j i).2.trans_lt (by norm_num)) hlen2 hnd2 hmem2]
  refine congrArg Except.ok ?_
  rw [zipWith_eq_map_range gf256_mul ctx.value_size X Y hXlen hYlen]
  apply List.map_congr_left
  intro j hj
  exact getD_map_range _ (List.mem_range.mp hj) 0

/-- Witness for C4: X = [50], Y = [30], N = 3, K = 2, selections
[0, 1, 2] (= 2K-1 parties) for the multiplication and [0, 2] for the
final reconstruction. -/
theorem claim_c4_witness :
    ∃ zs, mpc_secure_mul ⟨3, 2, 7, 1⟩
        (([0, 1, 2] : List Nat).map (fun p =>
          (((List.range 3).map (fun i =>
            ({ share := sss_share_of [50] 1 2 (fun _ _ => 1) i
               party_id := i + 1
               computation_id := 7 } : mpc_share_t))).getD p default)))
        (([0, 1, 2] : List Nat).map (fun p =>
          (((List.range 3).map (fun i =>
            ({ share := sss_share_of [30] 1 2 (fun _ _ => 2) i
               party_id := i + 1
               computation_id := 7 } : mpc_share_t))).getD p default)))
        (fun _ _ => 3) = .ok zs ∧
      mpc_reconstruct ⟨3, 2, 7, 1⟩
          (([0, 2] : List Nat).map (fun p => zs.getD p default)) =
        .ok (List.zipWith gf256_mul [50] [30]) :=
  claim_c4 ⟨3, 2, 7, 1⟩ [50] [30] (fun _ _ => 1) (fun _ _ => 2) (fun _ _ => 3)
    _ _ [0, 1, 2] [0, 2]
    (by norm_num [mpc_context_wf, SSS_MAX_SECRET_SIZE]) (by norm_num) (by norm_num)
    (by decide) (by decide)
    (fun j i => ⟨by norm_num, by norm_num⟩) (fun j i => ⟨by norm_num, by norm_num⟩)
    (fun j i => ⟨by norm_num, by norm_num⟩)
    (mpc_create_shares_eq ⟨3, 2, 7, 1⟩ [50] (fun _ _ => 1)
      (by norm_num [mpc_context_wf, SSS_MAX_SECRET_SIZE]))
    (mpc_create_shares_eq ⟨3, 2, 7, 1⟩ [30] (fun _ _ => 2)
      (by norm_num [mpc_context_wf, SSS_MAX_SECRET_SIZE]))
    (by decide) (by decide) (by decide)
    (by decide) (by decide) (by decide)
